import Mathlib

/-!
Verification of the JSON codec layer of the `adc` tool
(`pkg/api/apisix/types/types.go`): the scalar-or-list codec
(`StringOrSlice`), the node-set codec (`UpstreamNodes`), the
dynamic-metadata codec (`PluginMetadata`) and the plugin-configuration
codec (`Plugins`), modelled as pure Lean functions over a JSON value
tree, together with a byte-level front end for the places where the Go
code inspects raw bytes (`p[0]`, `len(p)`).
-/

set_option maxHeartbeats 1000000

namespace Adc

/-- A JSON value. Objects keep their fields in parse order; Go map
semantics (unordered, unique keys) are recovered by `canonFields` and
by lookup-based equivalence. JSON numbers are modelled as rationals
(the Go side stores them in `float64`; no claim here depends on
floating-point rounding). -/
inductive Json where
  | null : Json
  | bool (b : Bool) : Json
  | num (q : ℚ) : Json
  | str (s : String) : Json
  | arr (elems : List Json) : Json
  | obj (fields : List (String × Json)) : Json
  deriving Repr, Inhabited

/-! ### Association lists with Go map semantics -/

/-- Lookup in an association list (Go `m[k]`, first match). -/
def lookupKV {α : Type} (k : String) : List (String × α) → Option α
  | [] => none
  | (k', v) :: rest => if k' = k then some v else lookupKV k rest

/-- Go map assignment `m[k] = v`: replace in place if the key is
present, otherwise add the binding (modelled as appending). -/
def insertKV {α : Type} (k : String) (v : α) : List (String × α) → List (String × α)
  | [] => [(k, v)]
  | (k', v') :: rest =>
      if k' = k then (k', v) :: rest else (k', v') :: insertKV k v rest

/-- Go `delete(m, k)`. -/
def eraseKV {α : Type} (k : String) : List (String × α) → List (String × α)
  | [] => []
  | (k', v') :: rest =>
      if k' = k then eraseKV k rest else (k', v') :: eraseKV k rest

/-- The keys of an association list. -/
def keysOf {α : Type} : List (String × α) → List String
  | [] => []
  | (k, _) :: rest => k :: keysOf rest

/-- The value of the last occurrence of a key. -/
def lookupLastKV {α : Type} (k : String) : List (String × α) → Option α
  | [] => none
  | (k', v) :: rest =>
      match lookupLastKV k rest with
      | some r => some r
      | none => if k' = k then some v else none

/-- Worker for `canonFields`; `seen` holds keys already emitted. -/
def canonFieldsAux {α : Type} (seen : List String) : List (String × α) → List (String × α)
  | [] => []
  | (k, v) :: rest =>
      if k ∈ seen then canonFieldsAux seen rest
      else (k, (lookupLastKV k rest).getD v) :: canonFieldsAux (k :: seen) rest

/-- Duplicate keys collapsed the way decoding into a Go map collapses
them: the last occurrence of a key wins (Go maps carry no order, so
placing it at the first occurrence's position is a model artifact).
On lists without duplicate keys this is the identity. -/
def canonFields {α : Type} (l : List (String × α)) : List (String × α) :=
  canonFieldsAux [] l

/-- Pointwise-lookup equivalence of two field lists: equality as Go
maps ("key order insignificant"). -/
def mapEquiv {α : Type} (l₁ l₂ : List (String × α)) : Prop :=
  ∀ k, lookupKV k l₁ = lookupKV k l₂

/-! ### Models of Go standard-library helpers used by the codecs -/

/-- Worker for `goSplit`: split a character list at every occurrence
of `c` (model of `strings.Split(s, ":")`, which never returns an
empty list). -/
def splitCharList (c : Char) : List Char → List (List Char)
  | [] => [[]]
  | x :: xs =>
      match splitCharList c xs with
      | [] => [[]]
      | y :: ys => if x = c then [] :: y :: ys else (x :: y) :: ys

/-- Model of Go `strings.Split(s, String(c))` for a one-character
separator. -/
def goSplit (s : String) (c : Char) : List String :=
  (splitCharList c s.toList).map List.asString

/-- Decimal digit accumulation for `goAtoi`; fails on the first
non-digit character. -/
def parseDecDigits : List Char → Nat → Option Nat
  | [], acc => some acc
  | c :: cs, acc =>
      if c.isDigit then parseDecDigits cs (acc * 10 + (c.toNat - '0'.toNat))
      else none

/-- Model of Go `strconv.Atoi` (= `strconv.ParseInt(s, 10, 0)` on a
64-bit platform): optional sign, one or more decimal digits, value
within the `int64` range; anything else is an error (`none`). -/
def goAtoi (s : String) : Option Int :=
  match s.toList with
  | [] => none
  | '+' :: cs =>
      match cs, parseDecDigits cs 0 with
      | _ :: _, some n => if (n : Int) ≤ 2 ^ 63 - 1 then some (n : Int) else none
      | _, _ => none
  | '-' :: cs =>
      match cs, parseDecDigits cs 0 with
      | _ :: _, some n => if (n : Int) ≤ 2 ^ 63 then some (-(n : Int)) else none
      | _, _ => none
  | cs =>
      match parseDecDigits cs 0 with
      | some n => if (n : Int) ≤ 2 ^ 63 - 1 then some (n : Int) else none
      | none => none

/-- Go's `int(v)` conversion from `float64`: truncation toward zero
(numbers are modelled as rationals; `Int.div` is T-division, which
truncates toward zero, and a rational's denominator is positive). -/
def truncQ (q : ℚ) : ℤ :=
  Int.tdiv q.num q.den

/-- Sequential effectful map over a list, aborting at the first
error — the shape of every decode loop in the Go code. -/
def mapE {α β : Type} (f : α → Except String β) : List α → Except String (List β)
  | [] => .ok []
  | a :: l => do
      let b ← f a
      let bs ← mapE f l
      .ok (b :: bs)

/-! ### Conversions performed by `encoding/json` into Go scalar
targets. Unmarshalling JSON `null` into any Go value is a no-op
without error, so a `null` leaves the zero value in place. -/

/-- `encoding/json` decoding into a Go `string` target (zero value
`""`). -/
def jsonToGoString : Json → Except String String
  | .str s => .ok s
  | .null => .ok ""
  | _ => .error "json: cannot unmarshal value into Go value of type string"

/-- `encoding/json` decoding into a Go `int` target (zero value `0`);
a fractional number is an error. -/
def jsonToGoInt : Json → Except String ℤ
  | .num q => if q.den = 1 then .ok q.num else .error "json: cannot unmarshal number into Go value of type int"
  | .null => .ok 0
  | _ => .error "json: cannot unmarshal value into Go value of type int"

/-- `encoding/json` decoding into a Go `float64` target (zero value
`0`). -/
def jsonToGoFloat : Json → Except String ℚ
  | .num q => .ok q
  | .null => .ok 0
  | _ => .error "json: cannot unmarshal value into Go value of type float64"

/-! ### The node-set codec (`UpstreamNodes`) -/

/-- `UpstreamNode` from `types.go`: one backend endpoint. -/
structure UpstreamNode where
  host : String
  port : ℤ
  weight : ℤ
  deriving Repr, DecidableEq, Inhabited

/-- `mapKV2Node` from `types.go`: turn one `"host[:port]" ↦ weight`
entry of the compact map shape into a node. `strings.Split` on `":"`,
more than two pieces is an error, a missing port defaults to the
string `"80"`, the port is parsed with `strconv.Atoi`, the weight is
the `float64` value truncated by Go's `int(val)`. -/
def mapKV2Node (key : String) (val : ℚ) : Except String UpstreamNode :=
  let hp := goSplit key ':'
  let host := hp.headD ""
  if hp.length > 2 then .error "invalid upstream node"
  else
    let port := if hp.length = 2 then hp.getD 1 "80" else "80"
    match goAtoi port with
    | none => .error "parse port to int fail"
    | some portInt => .ok { host := host, port := portInt, weight := truncQ val }

/-- Decode one object field into one entry of a Go map with value
type decoded by `f`: the key carries over, the value must decode. -/
def decodeEntry {β : Type} (f : Json → Except String β)
    (kv : String × Json) : Except String (String × β) :=
  (f kv.2).map ((kv.1, ·))

/-- The object branch of `UpstreamNodes.UnmarshalJSON`: unmarshal the
payload into `map[string]float64`, then run `mapKV2Node` on every
entry, aborting on the first failure. -/
def upstreamNodesFromMap (fields : List (String × Json)) :
    Except String (List UpstreamNode) := do
  let kvs ← mapE (decodeEntry jsonToGoFloat) (canonFields fields)
  mapE (fun kv => mapKV2Node kv.1 kv.2) kvs

/-- `encoding/json` decoding of one element of `[]UpstreamNode`: an
object with optional `host`, `port`, `weight` fields (unknown fields
ignored; the case-insensitive field-name fallback of `encoding/json`
is not modelled, no claim exercises it); a `null` element leaves the
zero struct. -/
def decodeUpstreamNode : Json → Except String UpstreamNode
  | .obj fields => do
      let fs := canonFields fields
      let host ← match lookupKV "host" fs with
        | some v => jsonToGoString v
        | none => .ok ""
      let port ← match lookupKV "port" fs with
        | some v => jsonToGoInt v
        | none => .ok 0
      let weight ← match lookupKV "weight" fs with
        | some v => jsonToGoInt v
        | none => .ok 0
      .ok ⟨host, port, weight⟩
  | .null => .ok ⟨"", 0, 0⟩
  | _ => .error "json: cannot unmarshal value into Go value of type types.UpstreamNode"

/-- The array branch of `UpstreamNodes.UnmarshalJSON`: unmarshal the
payload into `[]UpstreamNode` (`null` leaves the nil slice). -/
def upstreamNodesFromArray : Json → Except String (List UpstreamNode)
  | .arr elems => mapE decodeUpstreamNode elems
  | .null => .ok []
  | _ => .error "json: cannot unmarshal value into Go value of type []types.UpstreamNode"

/-- `UpstreamNodes.UnmarshalJSON` at the JSON-tree level: the Go code
dispatches on `p[0] == '{'`, which for a serialized JSON value means
"the payload is an object". -/
def upstreamNodesUnmarshalTree : Json → Except String (List UpstreamNode)
  | .obj fields => upstreamNodesFromMap fields
  | j => upstreamNodesFromArray j

/-! ### The scalar-or-list codec (`StringOrSlice`) -/

/-- `StringOrSlice` from `types.go`. `sliceVal = none` models the nil
Go slice (`SliceVal == nil`), the discriminant used by
`MarshalJSON`. -/
structure StringOrSlice where
  strVal : String
  sliceVal : Option (List String)
  deriving Repr, DecidableEq, Inhabited

/-- `StringOrSlice.MarshalJSON`: a non-nil slice is emitted as a JSON
array, otherwise the string value is emitted. -/
def stringOrSliceMarshalTree (s : StringOrSlice) : Json :=
  match s.sliceVal with
  | some l => .arr (l.map Json.str)
  | none => .str s.strVal

/-- `StringOrSlice.UnmarshalJSON` at the JSON-tree level: the Go code
dispatches on `p[0] == '['`, which for a serialized JSON value means
"the payload is an array"; the array branch unmarshals into
`[]string`, the other branch into `string` (starting from the zero
struct, as a fresh decode does). -/
def stringOrSliceUnmarshalTree : Json → Except String StringOrSlice
  | .arr elems => (mapE jsonToGoString elems).map fun l => ⟨"", some l⟩
  | j => (jsonToGoString j).map fun s => ⟨s, none⟩

/-! ### The dynamic-metadata codec (`PluginMetadata`) -/

/-- `PluginMetadata` from `types.go`: identifier plus open
configuration map. `config = none` models the nil Go map. -/
structure PluginMetadata where
  id : String
  config : Option (List (String × Json))
  deriving Repr, Inhabited

/-- Outcome of `PluginMetadata.UnmarshalJSON`, with a distinct
constructor for a runtime panic. -/
inductive PMResult where
  | panicked : PMResult
  | err (msg : String) : PMResult
  | ok (pm : PluginMetadata) : PMResult
  deriving Repr, Inhabited

/-- `PluginMetadata.UnmarshalJSON`: parse the payload into a generic
`map[string]interface` record; if an `"id"` field is present the code
runs `reflect.TypeOf(id).Kind()` — for a JSON `null` the interface
value is nil, `reflect.TypeOf` returns a nil `reflect.Type`, and the
`Kind()` call panics; for any other non-string value it returns the
"plugin metadata id is not a string" error; for a string it becomes
the identifier and is deleted from the record. A `null` payload is a
no-op and leaves the nil map. -/
def pluginMetadataUnmarshal : Json → PMResult
  | .obj fields =>
      let config := canonFields fields
      match lookupKV "id" config with
      | some .null => .panicked
      | some (.str s) => .ok ⟨s, some (eraseKV "id" config)⟩
      | some _ => .err "plugin metadata id is not a string"
      | none => .ok ⟨"", some config⟩
  | .null => .ok ⟨"", none⟩
  | _ => .err "json: cannot unmarshal value into Go map value"

/-- `PluginMetadata.MarshalJSON`: a nil config map is replaced by a
fresh empty one; the identifier is stored under `"id"` (overwriting
any entry already there), the map is serialized, and the `"id"` key is
deleted again. The result pair is (produced JSON, receiver after the
call) — the receiver's map is mutated in place, there is no clone. -/
def pluginMetadataMarshal (s : PluginMetadata) : Json × PluginMetadata :=
  let cfg := s.config.getD []
  let cfg1 := insertKV "id" (.str s.id) cfg
  let out := Json.obj cfg1
  let cfg2 := eraseKV "id" cfg1
  (out, { s with config := some cfg2 })

/-! ### The plugin-configuration codec (`Plugins`) -/

/-- A plugin's configuration record (`type Plugin map[string]interface`
in `types.go`), an open record of JSON values. -/
abbrev Plugin := List (String × Json)

/-- `type Plugins map[string]Plugin` from `types.go`. -/
abbrev PluginsMap := List (String × Plugin)

/-- `encoding/json` decoding of one `Plugin` value: an object (with Go
map duplicate-key collapsing); a `null` value leaves the zero (nil)
map. -/
def decodePlugin : Json → Except String Plugin
  | .obj fields => .ok (canonFields fields)
  | .null => .ok []
  | _ => .error "json: cannot unmarshal value into Go value of type types.Plugin"

/-- Modelled from the spec: `GetPluginDefaultValues` — the plugin
default-value provider called by `Plugins.UnmarshalJSON` — is not part
of this repository's source tree. Spec §6 specifies it as
`defaults(name, supplied) → record`, pure and with no failure path,
and says an unknown plugin name returns the supplied record unchanged;
spec §9 says to model it as an injected pure function. This predicate
names that unknown-name behaviour for an injected provider. -/
def providerKeepsSupplied (defaults : String → Plugin → Plugin)
    (name : String) : Prop :=
  ∀ supplied, defaults name supplied = supplied

/-- `Plugins.UnmarshalJSON`, with the external provider `defaults`
injected: parse the payload into a fresh `map[string]Plugin` (a `null`
payload is a no-op), make the receiver's map if it is nil, then store
`defaults(name, config)` for every parsed entry — entries of the
receiver that the payload does not mention are kept. -/
def pluginsUnmarshal (defaults : String → Plugin → Plugin)
    (prior : PluginsMap) : Json → Except String PluginsMap
  | .obj fields => do
      let plugins ← mapE (decodeEntry decodePlugin) (canonFields fields)
      .ok (plugins.foldl (fun acc kv => insertKV kv.1 (defaults kv.1 kv.2) acc) prior)
  | .null => .ok prior
  | _ => .error "json: cannot unmarshal value into Go value of type types.Plugins"

/-! ### A byte-level front end

The Go decoders inspect raw bytes (`len(p)`, `p[0]`) before handing
the payload to `encoding/json`, so the byte-level claims need a model
of JSON syntax itself. The parser below is a straightforward
recursive-descent JSON reader over a character list (UTF-8 runes),
total by construction (fuel, `Option`). -/

/-- The `LEFT CURLY BRACKET` character. -/
def lbrace : Char := Char.ofNat 123

/-- The `RIGHT CURLY BRACKET` character. -/
def rbrace : Char := Char.ofNat 125

/-- JSON insignificant whitespace. -/
def isWs (c : Char) : Bool :=
  c = ' ' || c = '\t' || c = '\n' || c = '\r'

/-- Drop leading JSON whitespace. -/
def skipWs : List Char → List Char
  | [] => []
  | c :: cs => if isWs c then skipWs cs else c :: cs

/-- One hexadecimal digit. -/
def parseHexDigit (c : Char) : Option Nat :=
  if c.isDigit then some (c.toNat - '0'.toNat)
  else if 'a' ≤ c ∧ c ≤ 'f' then some (c.toNat - 'a'.toNat + 10)
  else if 'A' ≤ c ∧ c ≤ 'F' then some (c.toNat - 'A'.toNat + 10)
  else none

/-- JSON string body after the opening quote: plain characters and
the standard escapes (`\uXXXX` taken as a single code point; surrogate
pairs are not recombined — no claim depends on them). Returns the
decoded characters and the input after the closing quote. -/
def parseStringAux : List Char → List Char → Option (List Char × List Char)
  | [], _ => none
  | c :: cs, acc =>
      if c = '"' then some (acc.reverse, cs)
      else if c = '\\' then
        match cs with
        | [] => none
        | e :: cs' =>
            if e = '"' then parseStringAux cs' ('"' :: acc)
            else if e = '\\' then parseStringAux cs' ('\\' :: acc)
            else if e = '/' then parseStringAux cs' ('/' :: acc)
            else if e = 'n' then parseStringAux cs' ('\n' :: acc)
            else if e = 't' then parseStringAux cs' ('\t' :: acc)
            else if e = 'r' then parseStringAux cs' ('\r' :: acc)
            else if e = 'b' then parseStringAux cs' (Char.ofNat 8 :: acc)
            else if e = 'f' then parseStringAux cs' (Char.ofNat 12 :: acc)
            else if e = 'u' then
              match cs' with
              | h₁ :: h₂ :: h₃ :: h₄ :: cs'' =>
                  match parseHexDigit h₁, parseHexDigit h₂,
                      parseHexDigit h₃, parseHexDigit h₄ with
                  | some a, some b, some c', some d =>
                      parseStringAux cs''
                        (Char.ofNat (((a * 16 + b) * 16 + c') * 16 + d) :: acc)
                  | _, _, _, _ => none
              | _ => none
            else none
      else parseStringAux cs (c :: acc)

/-- Longest prefix of decimal digits, and the rest. -/
def takeDigits : List Char → List Char × List Char
  | [] => ([], [])
  | c :: cs =>
      if c.isDigit then
        let (ds, r) := takeDigits cs
        (c :: ds, r)
      else ([], c :: cs)

/-- Value of a decimal digit string. -/
def digitsVal (ds : List Char) : Nat :=
  ds.foldl (fun a c => a * 10 + (c.toNat - '0'.toNat)) 0

/-- Assemble a JSON number from sign, mantissa digits, decimal scale
and exponent: `±mant · 10^(±e − scale)`. -/
def mkNum (neg : Bool) (mant : Nat) (scale : Nat) (eneg : Bool) (e : Nat) : Json :=
  let sm : ℤ := if neg then -(mant : ℤ) else (mant : ℤ)
  let q : ℚ :=
    if eneg then mkRat sm (10 ^ (e + scale))
    else if scale ≤ e then mkRat (sm * ((10 ^ (e - scale) : ℕ) : ℤ)) 1
    else mkRat sm (10 ^ (scale - e))
  .num q

/-- Optional exponent part of a JSON number. -/
def parseExpPart (neg : Bool) (mant : Nat) (scale : Nat) :
    List Char → Option (Json × List Char)
  | c :: r =>
      if c = 'e' ∨ c = 'E' then
        let (eneg, r₁) :=
          match r with
          | c' :: r' =>
              if c' = '+' then (false, r')
              else if c' = '-' then (true, r')
              else (false, c' :: r')
          | [] => (false, [])
        match takeDigits r₁ with
        | ([], _) => none
        | (es, r₂) => some (mkNum neg mant scale eneg (digitsVal es), r₂)
      else some (mkNum neg mant scale false 0, c :: r)
  | [] => some (mkNum neg mant scale false 0, [])

/-- JSON number: optional minus, digits, optional fraction, optional
exponent (the JSON leading-zero restriction is not modelled; it only
rejects more inputs and no claim depends on it). -/
def parseNumber (cs : List Char) : Option (Json × List Char) :=
  let (neg, cs₁) :=
    match cs with
    | c :: r => if c = '-' then (true, r) else (false, cs)
    | [] => (false, [])
  match takeDigits cs₁ with
  | ([], _) => none
  | (ds, cs₂) =>
      match cs₂ with
      | '.' :: r =>
          match takeDigits r with
          | ([], _) => none
          | (fs, cs₃) => parseExpPart neg (digitsVal (ds ++ fs)) fs.length cs₃
      | _ => parseExpPart neg (digitsVal ds) 0 cs₂

mutual

/-- One JSON value (leading whitespace allowed), by fuel. -/
def parseVal : Nat → List Char → Option (Json × List Char)
  | 0, _ => none
  | fuel + 1, cs =>
      match skipWs cs with
      | [] => none
      | c :: rest =>
          if c = 'n' then
            match rest with
            | 'u' :: 'l' :: 'l' :: r => some (.null, r)
            | _ => none
          else if c = 't' then
            match rest with
            | 'r' :: 'u' :: 'e' :: r => some (.bool true, r)
            | _ => none
          else if c = 'f' then
            match rest with
            | 'a' :: 'l' :: 's' :: 'e' :: r => some (.bool false, r)
            | _ => none
          else if c = '"' then
            match parseStringAux rest [] with
            | some (chars, r) => some (.str chars.asString, r)
            | none => none
          else if c = '[' then
            match skipWs rest with
            | ']' :: r => some (.arr [], r)
            | rest' =>
                match parseElems fuel rest' with
                | some (es, r) => some (.arr es, r)
                | none => none
          else if c = lbrace then
            match skipWs rest with
            | [] => none
            | x :: r =>
                if x = rbrace then some (.obj [], r)
                else
                  match parseFields fuel (x :: r) with
                  | some (fs, r') => some (.obj fs, r')
                  | none => none
          else if c = '-' then parseNumber (c :: rest)
          else if c.isDigit then parseNumber (c :: rest)
          else none

/-- Comma-separated array elements up to `]`. -/
def parseElems : Nat → List Char → Option (List Json × List Char)
  | 0, _ => none
  | fuel + 1, cs =>
      match parseVal fuel cs with
      | none => none
      | some (j, rest) =>
          match skipWs rest with
          | ',' :: r =>
              match parseElems fuel r with
              | some (es, r') => some (j :: es, r')
              | none => none
          | ']' :: r => some ([j], r)
          | _ => none

/-- Comma-separated object members up to the closing brace. -/
def parseFields : Nat → List Char → Option (List (String × Json) × List Char)
  | 0, _ => none
  | fuel + 1, cs =>
      match skipWs cs with
      | '"' :: rest =>
          match parseStringAux rest [] with
          | none => none
          | some (kchars, rest') =>
              match skipWs rest' with
              | ':' :: rest'' =>
                  match parseVal fuel rest'' with
                  | none => none
                  | some (v, r) =>
                      match skipWs r with
                      | [] => none
                      | x :: r' =>
                          if x = ',' then
                            match parseFields fuel r' with
                            | some (fs, r'') =>
                                some ((kchars.asString, v) :: fs, r'')
                            | none => none
                          else if x = rbrace then
                            some ([(kchars.asString, v)], r')
                          else none
              | _ => none
      | _ => none

end

/-- Parse a complete JSON document the way `json.Unmarshal` does:
optional surrounding whitespace, one value, end of input. The fuel is
ample for any input of this length. -/
def parseTop (p : List Char) : Option Json :=
  match parseVal (2 * p.length + 4) p with
  | some (j, rest) => if (skipWs rest).isEmpty then some j else none
  | none => none

/-- Outcome of `UpstreamNodes.UnmarshalJSON`, with a distinct
constructor for a runtime panic. -/
inductive NodesResult where
  | panicked : NodesResult
  | err (msg : String) : NodesResult
  | ok (nodes : List UpstreamNode) : NodesResult
  deriving Repr, DecidableEq, Inhabited

/-- `UpstreamNodes.UnmarshalJSON` over raw bytes: the function's first
action is `p[0]` — on a zero-length input that is an out-of-bounds
index and the Go runtime panics; otherwise the first byte selects the
map branch (`'{'`) or the array branch. -/
def upstreamNodesUnmarshalBytes (p : List Char) : NodesResult :=
  match p with
  | [] => .panicked
  | c :: _ =>
      if c = lbrace then
        match parseTop p with
        | none => .err "invalid character in payload"
        | some (.obj fields) =>
            match upstreamNodesFromMap fields with
            | .ok ns => .ok ns
            | .error e => .err e
        | some _ =>
            .err "json: cannot unmarshal value into Go value of type map[string]float64"
      else
        match parseTop p with
        | none => .err "invalid character in payload"
        | some j =>
            match upstreamNodesFromArray j with
            | .ok ns => .ok ns
            | .error e => .err e

/-- `StringOrSlice.UnmarshalJSON` over raw bytes: empty input is the
"empty object" error; a first byte `'['` selects the `[]string`
branch, anything else the `string` branch. -/
def stringOrSliceUnmarshalBytes (p : List Char) : Except String StringOrSlice :=
  match p with
  | [] => .error "empty object"
  | c :: _ =>
      if c = '[' then
        match parseTop p with
        | none => .error "invalid character in payload"
        | some (.arr elems) => (mapE jsonToGoString elems).map fun l => ⟨"", some l⟩
        | some _ => .error "json: cannot unmarshal value into Go value of type []string"
      else
        match parseTop p with
        | none => .error "invalid character in payload"
        | some j => (jsonToGoString j).map fun s => ⟨s, none⟩

/-- Spec-side shape predicate for the scalar-or-list codec: the
payloads on which decode actually succeeds — a string, `null`, or an
array whose elements are strings or nulls. -/
def sosAccepts : Json → Bool
  | .str _ => true
  | .null => true
  | .arr elems =>
      elems.all fun e =>
        match e with
        | .str _ => true
        | .null => true
        | _ => false
  | _ => false

/-! ### A heap model for the structural-copy operation

`Plugins.DeepCopy` exists to produce a duplicate with no shared
mutable state. Sharing is a heap property, so the copy claims are
stated over an explicit store: maps and slices (`map[string]Plugin`,
`map[string]interface`, `[]interface`) live in addressed cells and are
passed by reference, scalars by value — exactly Go's aliasing
behaviour for these types. -/

/-- A Go `interface` value as stored in a cell: scalars by value,
maps and slices by reference. -/
inductive HVal where
  | vnull : HVal
  | vbool (b : Bool) : HVal
  | vnum (q : ℚ) : HVal
  | vstr (s : String) : HVal
  | vref (a : Nat) : HVal
  deriving Repr, DecidableEq, Inhabited

/-- One heap cell: an open record or a sequence. -/
inductive Cell where
  | cmap (fields : List (String × HVal)) : Cell
  | carr (elems : List HVal) : Cell
  deriving Repr, DecidableEq, Inhabited

/-- The store: allocated cells (first match wins) and the next fresh
address. -/
structure Heap where
  cells : List (Nat × Cell)
  next : Nat
  deriving Repr, DecidableEq, Inhabited

/-- Natess lookup in a cell list. -/
def lookupA : List (Nat × Cell) → Nat → Option Cell
  | [], _ => none
  | (a', c) :: rest, a => if a' = a then some c else lookupA rest a

/-- The cell at an address. -/
def Heap.cell (h : Heap) (a : Nat) : Option Cell :=
  lookupA h.cells a

/-- Collect a list of optional values, failing if any is absent. -/
def optList {α : Type} : List (Option α) → Option (List α)
  | [] => some []
  | o :: os =>
      match o with
      | none => none
      | some x =>
          match optList os with
          | none => none
          | some xs => some (x :: xs)

/-- Read the JSON tree reachable from a value — the model of
`json.Marshal` walking the structure. Fuel bounds the reference depth;
a cyclic structure exhausts it and fails, as `json.Marshal` reports an
encountered cycle. -/
def readVal : Nat → Heap → HVal → Option Json
  | 0, _, _ => none
  | fuel + 1, h, v =>
      match v with
      | .vnull => some .null
      | .vbool b => some (.bool b)
      | .vnum q => some (.num q)
      | .vstr s => some (.str s)
      | .vref a =>
          match h.cell a with
          | some (.cmap fs) =>
              (optList (fs.map fun kv => (readVal fuel h kv.2).map ((kv.1, ·)))).map
                Json.obj
          | some (.carr es) =>
              (optList (es.map fun e => readVal fuel h e)).map Json.arr
          | none => none

/-- Replace the cell at an address (first match) in a cell list. -/
def writeA : List (Nat × Cell) → Nat → Cell → List (Nat × Cell)
  | [], _, _ => []
  | (a', c') :: rest, a, c =>
      if a' = a then (a', c) :: rest else (a', c') :: writeA rest a c

/-- Mutate the cell at an address in place — the model of writing
through a map or slice reference. -/
def writeCell (h : Heap) (a : Nat) (c : Cell) : Heap :=
  ⟨writeA h.cells a c, h.next⟩

mutual

/-- Rebuild a JSON tree in freshly allocated cells — the model of
`json.Unmarshal` constructing new maps and slices. -/
def allocJson : Heap → Json → HVal × Heap
  | h, .null => (.vnull, h)
  | h, .bool b => (.vbool b, h)
  | h, .num q => (.vnum q, h)
  | h, .str s => (.vstr s, h)
  | h, .arr es =>
      let (vs, h') := allocElems h es
      (.vref h'.next, ⟨(h'.next, .carr vs) :: h'.cells, h'.next + 1⟩)
  | h, .obj fs =>
      let (fvs, h') := allocFields h fs
      (.vref h'.next, ⟨(h'.next, .cmap fvs) :: h'.cells, h'.next + 1⟩)

/-- Allocate every field value of an object in turn. -/
def allocFields : Heap → List (String × Json) → List (String × HVal) × Heap
  | h, [] => ([], h)
  | h, (k, t) :: rest =>
      let (v, h₁) := allocJson h t
      let (vs, h₂) := allocFields h₁ rest
      ((k, v) :: vs, h₂)

/-- Allocate every element of an array in turn. -/
def allocElems : Heap → List Json → List HVal × Heap
  | h, [] => ([], h)
  | h, t :: rest =>
      let (v, h₁) := allocJson h t
      let (vs, h₂) := allocElems h₁ rest
      (v :: vs, h₂)

end

/-- `Plugins.DeepCopyInto` in the heap model: `json.Marshal(&p)` reads
the reachable structure into a tree (its error — a cyclic value — is
discarded and leaves nil bytes, whose unmarshal fails and leaves the
zero value), then `json.Unmarshal(b, out)` rebuilds the tree in fresh
cells. -/
def deepCopyVal (fuel : Nat) (h : Heap) (v : HVal) : HVal × Heap :=
  match readVal fuel h v with
  | some t => allocJson h t
  | none => (.vnull, h)

/-- All references of a value lie in the window `[lo, hi)`. -/
def refsWindowV (lo hi : Nat) : HVal → Bool
  | .vref a => lo ≤ a && a < hi
  | _ => true

/-- All references of a cell lie in the window `[lo, hi)`. -/
def refsWindowC (lo hi : Nat) : Cell → Bool
  | .cmap fs => fs.all fun kv => refsWindowV lo hi kv.2
  | .carr es => es.all fun v => refsWindowV lo hi v

/-- Well-formed heap: every cell sits below the allocation cursor and
references only addresses below it. -/
def heapWFb (h : Heap) : Bool :=
  h.cells.all fun ac => decide (ac.1 < h.next) && refsWindowC 0 h.next ac.2

/-- The references of a value lie in the address set `S`. -/
def valRefsIn (S : Nat → Prop) : HVal → Prop
  | .vref a => S a
  | _ => True

/-- The references of a cell lie in the address set `S`. -/
def cellRefsIn (S : Nat → Prop) : Cell → Prop
  | .cmap fs => ∀ kv ∈ fs, valRefsIn S kv.2
  | .carr es => ∀ v ∈ es, valRefsIn S v

/-! ## Theorems -/

/-! ### Association-list lemmas -/

theorem lookupKV_eraseKV {α : Type} (k k' : String) (l : List (String × α)) :
    lookupKV k (eraseKV k' l) = if k' = k then none else lookupKV k l := by
  induction l with
  | nil => simp [eraseKV, lookupKV]
  | cons hd tl ih =>
      obtain ⟨k₀, v₀⟩ := hd
      by_cases h₀ : k₀ = k' <;> by_cases h₁ : k₀ = k
      · subst h₀; subst h₁; simp [eraseKV, lookupKV, ih]
      · subst h₀; simp [eraseKV, lookupKV, ih, h₁]
      · subst h₁
        have h₂ : ¬ k' = k₀ := fun he => h₀ he.symm
        simp [eraseKV, lookupKV, h₀, h₂]
      · simp [eraseKV, lookupKV, h₀, h₁, ih]

theorem lookupKV_of_not_mem {α : Type} (k : String) (l : List (String × α))
    (h : k ∉ keysOf l) : lookupKV k l = none := by
  induction l with
  | nil => rfl
  | cons hd tl ih =>
      obtain ⟨k₀, v₀⟩ := hd
      simp only [keysOf, List.mem_cons] at h
      push_neg at h
      simp only [lookupKV]
      rw [if_neg (fun he => h.1 he.symm)]
      exact ih h.2

theorem lookupLastKV_of_not_mem {α : Type} (k : String) (l : List (String × α))
    (h : k ∉ keysOf l) : lookupLastKV k l = none := by
  induction l with
  | nil => rfl
  | cons hd tl ih =>
      obtain ⟨k₀, v₀⟩ := hd
      simp only [keysOf, List.mem_cons] at h
      push_neg at h
      simp only [lookupLastKV, ih h.2]
      rw [if_neg (fun he => h.1 he.symm)]

theorem eraseKV_of_not_mem {α : Type} (k : String) (l : List (String × α))
    (h : k ∉ keysOf l) : eraseKV k l = l := by
  induction l with
  | nil => rfl
  | cons hd tl ih =>
      obtain ⟨k₀, v₀⟩ := hd
      simp only [keysOf, List.mem_cons] at h
      push_neg at h
      simp only [eraseKV]
      rw [if_neg (fun he => h.1 he.symm), ih h.2]

theorem canonFieldsAux_of_nodup {α : Type} :
    ∀ (l : List (String × α)) (seen : List String),
      (keysOf l).Nodup → (∀ k ∈ keysOf l, k ∉ seen) →
      canonFieldsAux seen l = l := by
  intro l
  induction l with
  | nil => intro seen _ _; rfl
  | cons hd tl ih =>
      intro seen hnd hdis
      obtain ⟨k₀, v₀⟩ := hd
      simp only [keysOf, List.nodup_cons] at hnd
      have hk₀ : k₀ ∉ seen := hdis k₀ (by simp [keysOf])
      have hside : ∀ k ∈ keysOf tl, k ∉ k₀ :: seen := by
        intro k hk
        simp only [List.mem_cons]
        push_neg
        exact ⟨fun he => hnd.1 (he ▸ hk), hdis k (by simp [keysOf, hk])⟩
      simp only [canonFieldsAux, if_neg hk₀, lookupLastKV_of_not_mem _ _ hnd.1,
        Option.getD_none, ih (k₀ :: seen) hnd.2 hside]

theorem canonFields_of_nodup {α : Type} (l : List (String × α))
    (h : (keysOf l).Nodup) : canonFields l = l :=
  canonFieldsAux_of_nodup l [] h (by simp)

/-! ### `mapM` helpers -/

theorem mapE_ok_length {α β : Type} {f : α → Except String β} :
    ∀ {l : List α} {l' : List β}, mapE f l = Except.ok l' → l'.length = l.length := by
  intro l
  induction l with
  | nil =>
      intro l' h
      cases h
      rfl
  | cons a l ih =>
      intro l' h
      simp only [mapE, Bind.bind, Except.bind] at h
      cases hfa : f a with
      | error e => rw [hfa] at h; cases h
      | ok b =>
          rw [hfa] at h
          cases hml : mapE f l with
          | error e => rw [hml] at h; cases h
          | ok bs =>
              rw [hml] at h
              cases h
              simp [ih hml]

theorem mapE_jsonToGoString_map_str (L : List String) :
    mapE jsonToGoString (L.map Json.str) = Except.ok L := by
  induction L with
  | nil => rfl
  | cons a L ih =>
      simp only [List.map_cons, mapE, jsonToGoString, ih]
      rfl

/-! ### Claim theorems -/

/-- **C1.** For every list of strings `L` (one-element lists
included), encoding `L` with the scalar-or-list codec and decoding the
result yields `L` again, and the encoding of a list is always a JSON
array, never a bare scalar. -/
theorem stringOrSlice_roundtrip_list (L : List String) :
    stringOrSliceUnmarshalTree (stringOrSliceMarshalTree ⟨"", some L⟩) =
      Except.ok ⟨"", some L⟩ ∧
    ∃ es, stringOrSliceMarshalTree ⟨"", some L⟩ = Json.arr es := by
  refine ⟨?_, ⟨L.map Json.str, rfl⟩⟩
  simp only [stringOrSliceMarshalTree, stringOrSliceUnmarshalTree,
    mapE_jsonToGoString_map_str]
  rfl

/-- **C2.** Compact-map node decode: a key with no colon yields that
host with default port 80; a key with one colon and a numeric port
yields that host and port; the weight is the numeric value truncated
toward zero; more than one colon, or a non-numeric port segment, is a
decode error; the empty object decodes to the empty node list, and a
successful map decode yields exactly one node per entry. -/
theorem upstreamNodes_map_decode :
    (∀ k w host, goSplit k ':' = [host] →
        mapKV2Node k w = Except.ok ⟨host, 80, truncQ w⟩) ∧
    (∀ k w host port n, goSplit k ':' = [host, port] → goAtoi port = some n →
        mapKV2Node k w = Except.ok ⟨host, n, truncQ w⟩) ∧
    (∀ k w, (goSplit k ':').length > 2 →
        mapKV2Node k w = Except.error "invalid upstream node") ∧
    (∀ k w host port, goSplit k ':' = [host, port] → goAtoi port = none →
        mapKV2Node k w = Except.error "parse port to int fail") ∧
    (upstreamNodesUnmarshalTree (Json.obj []) = Except.ok []) ∧
    (∀ fields ns, (keysOf fields).Nodup →
        upstreamNodesUnmarshalTree (Json.obj fields) = Except.ok ns →
        ns.length = fields.length) := by
  refine ⟨?_, ?_, ?_, ?_, by rfl, ?_⟩
  · intro k w host hsplit
    simp [mapKV2Node, hsplit, show goAtoi "80" = some (80 : ℤ) from by decide]
  · intro k w host port n hsplit hatoi
    simp [mapKV2Node, hsplit, hatoi]
  · intro k w hlen
    simp [mapKV2Node, if_pos hlen]
  · intro k w host port hsplit hatoi
    simp [mapKV2Node, hsplit, hatoi]
  · intro fields ns hnodup h
    simp only [upstreamNodesUnmarshalTree, upstreamNodesFromMap,
      canonFields_of_nodup fields hnodup, Bind.bind, Except.bind] at h
    cases h₁ : mapE (decodeEntry jsonToGoFloat) fields with
    | error e => rw [h₁] at h; cases h
    | ok kvs =>
        rw [h₁] at h
        have := mapE_ok_length h
        have := mapE_ok_length h₁
        omega

theorem lookupKV_insertKV_self {α : Type} (k : String) (v : α) (l : List (String × α)) :
    lookupKV k (insertKV k v l) = some v := by
  induction l with
  | nil => simp [insertKV, lookupKV]
  | cons hd tl ih =>
      obtain ⟨k₀, v₀⟩ := hd
      by_cases h₀ : k₀ = k
      · subst h₀; simp [insertKV, lookupKV]
      · simp [insertKV, lookupKV, h₀, ih]

theorem lookupKV_insertKV_ne {α : Type} (k k' : String) (v : α) (l : List (String × α))
    (h : k' ≠ k) : lookupKV k (insertKV k' v l) = lookupKV k l := by
  induction l with
  | nil => simp [insertKV, lookupKV, h]
  | cons hd tl ih =>
      obtain ⟨k₀, v₀⟩ := hd
      by_cases h₀ : k₀ = k'
      · subst h₀; simp [insertKV, lookupKV, h]
      · simp [insertKV, lookupKV, h₀, ih]

theorem eraseKV_insertKV_of_not_mem {α : Type} (k : String) (v : α)
    (l : List (String × α)) (h : k ∉ keysOf l) :
    eraseKV k (insertKV k v l) = l := by
  induction l with
  | nil => simp [insertKV, eraseKV]
  | cons hd tl ih =>
      obtain ⟨k₀, v₀⟩ := hd
      simp only [keysOf, List.mem_cons] at h
      push_neg at h
      have h₀ : ¬ k₀ = k := fun he => h.1 he.symm
      simp only [insertKV, if_pos, if_neg h₀, eraseKV]
      rw [ih h.2]

/-- **C3** (the code evaluated at the failing input): decoding
`id: null` does not produce the invalid-identifier error the spec
prescribes for every non-string `"id"` — it panics on a nil
`reflect.Type`; a numeric `"id"` does take the error path. -/
theorem pluginMetadata_id_null_panics :
    pluginMetadataUnmarshal (Json.obj [("id", Json.null)]) = PMResult.panicked ∧
    pluginMetadataUnmarshal (Json.obj [("id", Json.num 42)]) =
      PMResult.err "plugin metadata id is not a string" :=
  ⟨rfl, rfl⟩

/-- **C4** is false as stated: encoding a record whose configuration
map already contains an `"id"` entry deletes that entry from the
original map — encode mutates it. -/
theorem pluginMetadataMarshal_mutates :
    (pluginMetadataMarshal ⟨"newid", some [("id", Json.str "old")]⟩).2 ≠
      ⟨"newid", some [("id", Json.str "old")]⟩ := by
  intro h
  have : some ([] : List (String × Json)) = some [("id", Json.str "old")] :=
    congrArg PluginMetadata.config h
  simp at this

/-- **C4 (amended).** Encode leaves the configuration map exactly as
it was whenever the map is non-nil and does not already contain an
`"id"` key (a nil map is replaced by a fresh empty one, and a
pre-existing `"id"` entry is deleted, as the counterexample shows). -/
theorem pluginMetadataMarshal_no_mutation (s : String)
    (cfg : List (String × Json)) (h : "id" ∉ keysOf cfg) :
    (pluginMetadataMarshal ⟨s, some cfg⟩).2 = ⟨s, some cfg⟩ := by
  simp only [pluginMetadataMarshal, Option.getD_some,
    eraseKV_insertKV_of_not_mem _ _ _ h]

/-- Concrete instance of `pluginMetadataMarshal_no_mutation`. -/
theorem pluginMetadataMarshal_no_mutation_witness :
    (pluginMetadataMarshal ⟨"abc", some [("x", Json.num 1)]⟩).2 =
      ⟨"abc", some [("x", Json.num 1)]⟩ :=
  pluginMetadataMarshal_no_mutation "abc" [("x", Json.num 1)] (by decide)

/-- **C5.** Decoding an object whose `"id"` field is a JSON string
yields that identifier with the `"id"` entry removed from the record
(not duplicated inside it), and re-encoding produces an object
equivalent to the original (key order insignificant). -/
theorem pluginMetadata_decode_encode_equiv
    (fields : List (String × Json)) (s : String)
    (hnodup : (keysOf fields).Nodup)
    (hid : lookupKV "id" fields = some (Json.str s)) :
    ∃ cfg, pluginMetadataUnmarshal (Json.obj fields) = PMResult.ok ⟨s, some cfg⟩ ∧
      lookupKV "id" cfg = none ∧
      ∃ out, (pluginMetadataMarshal ⟨s, some cfg⟩).1 = Json.obj out ∧
        mapEquiv out fields := by
  refine ⟨eraseKV "id" fields, ?_, ?_, ?_⟩
  · simp only [pluginMetadataUnmarshal, canonFields_of_nodup _ hnodup, hid]
  · simp [lookupKV_eraseKV]
  · refine ⟨insertKV "id" (Json.str s) (eraseKV "id" fields), rfl, ?_⟩
    intro k
    by_cases hk : k = "id"
    · subst hk
      rw [lookupKV_insertKV_self, hid]
    · rw [lookupKV_insertKV_ne _ _ _ _ (fun he => hk he.symm), lookupKV_eraseKV,
        if_neg (fun he => hk he.symm)]

/-- Concrete instance of `pluginMetadata_decode_encode_equiv`: the
spec's own example `id: "abc", x: 1`. -/
theorem pluginMetadata_decode_encode_equiv_witness :
    ∃ cfg, pluginMetadataUnmarshal
        (Json.obj [("id", Json.str "abc"), ("x", Json.num 1)]) =
        PMResult.ok ⟨"abc", some cfg⟩ ∧
      lookupKV "id" cfg = none ∧
      ∃ out, (pluginMetadataMarshal ⟨"abc", some cfg⟩).1 = Json.obj out ∧
        mapEquiv out [("id", Json.str "abc"), ("x", Json.num 1)] :=
  pluginMetadata_decode_encode_equiv [("id", Json.str "abc"), ("x", Json.num 1)]
    "abc" (by decide) (by rfl)

/-- Concrete instances of `upstreamNodes_map_decode`: the spec's own
examples. -/
theorem upstreamNodes_map_decode_witness :
    mapKV2Node "10.0.0.1" 3 = Except.ok ⟨"10.0.0.1", 80, truncQ 3⟩ ∧
    mapKV2Node "10.0.0.1:8080" 5 = Except.ok ⟨"10.0.0.1", 8080, truncQ 5⟩ ∧
    mapKV2Node "a:b:c" 1 = Except.error "invalid upstream node" ∧
    mapKV2Node "host:b" 1 = Except.error "parse port to int fail" ∧
    upstreamNodesUnmarshalTree (Json.obj [("10.0.0.1:8080", Json.num 5)]) =
      Except.ok [⟨"10.0.0.1", 8080, 5⟩] :=
  ⟨upstreamNodes_map_decode.1 "10.0.0.1" 3 "10.0.0.1" (by decide),
   upstreamNodes_map_decode.2.1 "10.0.0.1:8080" 5 "10.0.0.1" "8080" 8080
     (by decide) (by decide),
   upstreamNodes_map_decode.2.2.1 "a:b:c" 1 (by decide),
   upstreamNodes_map_decode.2.2.2.1 "host:b" 1 "host" "b" (by decide) (by decide),
   by rfl⟩

/-! ### Lemmas about the decode-and-store loop of `Plugins` -/

theorem lookupKV_foldl_insert_of_not_mem {α : Type}
    (g : String × α → α) (k : String) :
    ∀ (l : List (String × α)) (init : List (String × α)), k ∉ keysOf l →
      lookupKV k (l.foldl (fun acc kv => insertKV kv.1 (g kv) acc) init) =
        lookupKV k init := by
  intro l
  induction l with
  | nil => intro init _; rfl
  | cons hd tl ih =>
      intro init h
      obtain ⟨k₀, v₀⟩ := hd
      simp only [keysOf, List.mem_cons] at h
      push_neg at h
      simp only [List.foldl_cons]
      rw [ih _ h.2, lookupKV_insertKV_ne _ _ _ _ (fun he => h.1 he.symm)]

theorem lookupKV_foldl_insert_of_mem {α : Type}
    (g : String × α → α) (k : String) (v : α) :
    ∀ (l : List (String × α)) (init : List (String × α)),
      (keysOf l).Nodup → (k, v) ∈ l →
      lookupKV k (l.foldl (fun acc kv => insertKV kv.1 (g kv) acc) init) =
        some (g (k, v)) := by
  intro l
  induction l with
  | nil => intro init _ hmem; cases hmem
  | cons hd tl ih =>
      intro init hnd hmem
      obtain ⟨k₀, v₀⟩ := hd
      simp only [keysOf, List.nodup_cons] at hnd
      rcases List.mem_cons.mp hmem with heq | hmem'
      · cases heq
        have hk : k ∉ keysOf tl := hnd.1
        simp only [List.foldl_cons]
        rw [lookupKV_foldl_insert_of_not_mem _ _ _ _ hk, lookupKV_insertKV_self]
      · simp only [List.foldl_cons]
        exact ih _ hnd.2 hmem'

theorem keysOf_mapE_decode {β : Type} (f : Json → Except String β) :
    ∀ (l : List (String × Json)) (l' : List (String × β)),
      mapE (decodeEntry f) l = Except.ok l' →
      keysOf l' = keysOf l := by
  intro l
  induction l with
  | nil => intro l' h; cases h; rfl
  | cons hd tl ih =>
      intro l' h
      obtain ⟨k₀, v₀⟩ := hd
      simp only [mapE, decodeEntry, Bind.bind, Except.bind] at h
      cases hfa : f v₀ with
      | error e => rw [hfa] at h; simp [Except.map] at h
      | ok b =>
          rw [hfa] at h
          simp only [Except.map] at h
          cases hml : mapE (decodeEntry f) tl with
          | error e => rw [hml] at h; cases h
          | ok bs =>
              rw [hml] at h
              cases h
              simp [keysOf, ih bs hml]

theorem mapE_decode_of_map {β : Type} (f : Json → Except String β)
    (g : List (String × Json) → Json) (h : List (String × Json) → β)
    (hok : ∀ cfg, f (g cfg) = Except.ok (h cfg)) :
    ∀ (entries : List (String × List (String × Json))),
      mapE (decodeEntry f) (entries.map fun e => (e.1, g e.2)) =
        Except.ok (entries.map fun e => (e.1, h e.2)) := by
  intro entries
  induction entries with
  | nil => rfl
  | cons hd tl ih =>
      obtain ⟨name, cfg⟩ := hd
      simp only [List.map_cons, mapE]
      rw [show decodeEntry f (name, g cfg) = Except.ok (name, h cfg) by
        simp [decodeEntry, hok, Except.map]]
      rw [ih]
      rfl

theorem keysOf_canonFieldsAux_subset {α : Type} :
    ∀ (l : List (String × α)) (seen : List String),
      keysOf (canonFieldsAux seen l) ⊆ keysOf l := by
  intro l
  induction l with
  | nil => intro seen x hx; simp [canonFieldsAux, keysOf] at hx
  | cons hd tl ih =>
      intro seen x hx
      obtain ⟨k₀, v₀⟩ := hd
      simp only [canonFieldsAux] at hx
      by_cases hs : k₀ ∈ seen
      · rw [if_pos hs] at hx
        simp only [keysOf, List.mem_cons]
        exact Or.inr (ih seen hx)
      · rw [if_neg hs] at hx
        simp only [keysOf, List.mem_cons] at hx ⊢
        rcases hx with rfl | hx
        · exact Or.inl rfl
        · exact Or.inr (ih _ hx)

theorem keysOf_canonFields_subset {α : Type} (l : List (String × α)) :
    keysOf (canonFields l) ⊆ keysOf l :=
  keysOf_canonFieldsAux_subset l []

theorem keysOf_map_pair {α β : Type} (f : α → β) (entries : List (String × α)) :
    keysOf (entries.map fun e => (e.1, f e.2)) = entries.map Prod.fst := by
  induction entries with
  | nil => rfl
  | cons hd tl ih => simp [keysOf, ih]

/-- **C7.** For a payload object mapping plugin names to configuration
objects (with distinct names), decode succeeds and stores, for each
entry, exactly `defaults name supplied`; when the provider returns the
supplied record unchanged for a name (the spec's unknown-plugin case),
that entry passes through unchanged. -/
theorem plugins_decode_stores_defaults
    (defaults : String → Plugin → Plugin) (prior : PluginsMap)
    (entries : List (String × List (String × Json)))
    (hnodup : (entries.map Prod.fst).Nodup) :
    ∃ res,
      pluginsUnmarshal defaults prior
          (Json.obj (entries.map fun e => (e.1, Json.obj e.2))) = Except.ok res ∧
      (∀ name cfg, (name, cfg) ∈ entries →
          lookupKV name res = some (defaults name (canonFields cfg))) ∧
      (∀ name cfg, (name, cfg) ∈ entries → providerKeepsSupplied defaults name →
          lookupKV name res = some (canonFields cfg)) := by
  have hkeys : keysOf (entries.map fun e => (e.1, Json.obj e.2)) =
      entries.map Prod.fst := keysOf_map_pair Json.obj entries
  have hcanon : canonFields (entries.map fun e => (e.1, Json.obj e.2)) =
      entries.map fun e => (e.1, Json.obj e.2) :=
    canonFields_of_nodup _ (hkeys ▸ hnodup)
  have hmap := mapE_decode_of_map decodePlugin Json.obj
    (fun cfg => canonFields cfg) (fun _ => rfl) entries
  have hnd' : (keysOf (entries.map fun e => (e.1, canonFields e.2))).Nodup := by
    rw [keysOf_map_pair]; exact hnodup
  have hstore : ∀ name cfg, (name, cfg) ∈ entries →
      lookupKV name ((entries.map fun e => (e.1, canonFields e.2)).foldl
        (fun acc kv => insertKV kv.1 (defaults kv.1 kv.2) acc) prior) =
        some (defaults name (canonFields cfg)) := by
    intro name cfg hmem
    have hmem' : (name, canonFields cfg) ∈
        entries.map fun e => (e.1, canonFields e.2) :=
      List.mem_map.mpr ⟨(name, cfg), hmem, rfl⟩
    exact lookupKV_foldl_insert_of_mem _ name (canonFields cfg) _ prior hnd' hmem'
  refine ⟨(entries.map fun e => (e.1, canonFields e.2)).foldl
      (fun acc kv => insertKV kv.1 (defaults kv.1 kv.2) acc) prior, ?_,
      hstore, ?_⟩
  · simp only [pluginsUnmarshal, hcanon, hmap, Bind.bind, Except.bind]
  · intro name cfg hmem hkeep
    rw [hstore name cfg hmem, hkeep (canonFields cfg)]

/-- Concrete instance of `plugins_decode_stores_defaults`: with a
pass-through provider, an unknown plugin's supplied record survives
decode unchanged. -/
theorem plugins_decode_stores_defaults_witness :
    ∃ res,
      pluginsUnmarshal (fun _ p => p) []
          (Json.obj [("unknown-plugin", Json.obj [("x", Json.num 1)])]) =
        Except.ok res ∧
      (∀ name cfg,
          (name, cfg) ∈ [("unknown-plugin", [("x", Json.num 1)])] →
          lookupKV name res = some (canonFields cfg)) ∧
      (∀ name cfg,
          (name, cfg) ∈ [("unknown-plugin", [("x", Json.num 1)])] →
          providerKeepsSupplied (fun _ p => p) name →
          lookupKV name res = some (canonFields cfg)) :=
  plugins_decode_stores_defaults (fun _ p => p) []
    [("unknown-plugin", [("x", Json.num 1)])] (by decide)

/-- **C10.** Plugin-configuration decode merges into the receiving
mapping: any entry of the prior mapping whose name is not a key of the
payload object is unchanged in the result. -/
theorem plugins_decode_merges
    (defaults : String → Plugin → Plugin) (prior : PluginsMap)
    (fields : List (String × Json)) (res : PluginsMap) (name : String)
    (h : pluginsUnmarshal defaults prior (Json.obj fields) = Except.ok res)
    (hname : name ∉ keysOf fields) :
    lookupKV name res = lookupKV name prior := by
  simp only [pluginsUnmarshal, Bind.bind, Except.bind] at h
  cases hm : mapE (decodeEntry decodePlugin) (canonFields fields) with
  | error e => rw [hm] at h; cases h
  | ok plugins =>
      rw [hm] at h
      cases h
      have hkeys : keysOf plugins = keysOf (canonFields fields) :=
        keysOf_mapE_decode decodePlugin _ _ hm
      have hsub : name ∉ keysOf plugins := by
        rw [hkeys]
        intro hc
        exact hname (keysOf_canonFields_subset fields hc)
      exact lookupKV_foldl_insert_of_not_mem _ name plugins prior hsub

/-- Concrete instance of `plugins_decode_merges`: a prior entry
survives a decode that does not mention it. -/
theorem plugins_decode_merges_witness :
    lookupKV "old-plugin"
      ([("old-plugin", ([] : Plugin)), ("new-plugin", [])] : PluginsMap) =
    lookupKV "old-plugin" ([("old-plugin", ([] : Plugin))] : PluginsMap) :=
  plugins_decode_merges (fun _ p => p) [("old-plugin", [])]
    [("new-plugin", Json.obj [])]
    [("old-plugin", []), ("new-plugin", [])] "old-plugin" (by rfl) (by decide)

/-- **C6** is false as stated: the node-set decoder's first action is
`p[0]`, so on the zero-length input it panics with an index
out-of-range instead of returning an EmptyPayload error. -/
theorem upstreamNodesBytes_empty_panics :
    upstreamNodesUnmarshalBytes [] = NodesResult.panicked := rfl

/-- **C6 (amended).** On every nonempty input byte sequence the
node-set decoder is total: it returns a node sequence or an error and
never reaches the panic outcome; only the zero-length input faults
(there is no EmptyPayload guard in this decoder). -/
theorem upstreamNodesBytes_total_of_nonempty (p : List Char) (h : p ≠ []) :
    upstreamNodesUnmarshalBytes p ≠ NodesResult.panicked := by
  cases p with
  | nil => exact absurd rfl h
  | cons c cs =>
      intro hcontra
      simp only [upstreamNodesUnmarshalBytes] at hcontra
      split at hcontra <;> split at hcontra <;>
        first
          | exact NodesResult.noConfusion hcontra
          | (split at hcontra <;> exact NodesResult.noConfusion hcontra)

/-- Concrete instance of `upstreamNodesBytes_total_of_nonempty`. -/
theorem upstreamNodesBytes_total_witness :
    upstreamNodesUnmarshalBytes ("[]".toList) ≠ NodesResult.panicked :=
  upstreamNodesBytes_total_of_nonempty ("[]".toList) (by decide)

theorem mapE_cons_ok_iff {α β : Type} (f : α → Except String β) (a : α)
    (l₀ : List α) (b : β) (hfa : f a = Except.ok b) :
    (∃ l, mapE f (a :: l₀) = Except.ok l) ↔ (∃ l, mapE f l₀ = Except.ok l) := by
  simp only [mapE, hfa, Bind.bind, Except.bind]
  cases hml : mapE f l₀ with
  | error e => simp
  | ok bs => simp

theorem mapE_cons_error {α β : Type} (f : α → Except String β) (a : α)
    (l₀ : List α) (e : String) (hfa : f a = Except.error e) :
    ¬ ∃ l, mapE f (a :: l₀) = Except.ok l := by
  simp [mapE, hfa, Bind.bind, Except.bind]

theorem mapE_jsonToGoString_ok_iff (elems : List Json) :
    (∃ l, mapE jsonToGoString elems = Except.ok l) ↔
      (elems.all fun e =>
        match e with
        | .str _ => true
        | .null => true
        | _ => false) = true := by
  induction elems with
  | nil => simp [mapE]
  | cons e rest ih =>
      cases e with
      | null =>
          rw [mapE_cons_ok_iff jsonToGoString Json.null rest "" rfl, ih]
          simp
      | str s =>
          rw [mapE_cons_ok_iff jsonToGoString (Json.str s) rest s rfl, ih]
          simp
      | bool b =>
          refine iff_of_false (mapE_cons_error jsonToGoString _ rest _ rfl) ?_
          simp
      | num q =>
          refine iff_of_false (mapE_cons_error jsonToGoString _ rest _ rfl) ?_
          simp
      | arr es =>
          refine iff_of_false (mapE_cons_error jsonToGoString _ rest _ rfl) ?_
          simp
      | obj fs =>
          refine iff_of_false (mapE_cons_error jsonToGoString _ rest _ rfl) ?_
          simp

/-- **C9 (amended).** Scalar-or-list decode succeeds exactly on the
payloads `sosAccepts` describes — a JSON string, a JSON array whose
elements are strings or nulls, or JSON `null` (nulls decode to empty
strings instead of failing); every other nonempty payload fails
(MalformedValue), and the empty input fails with the "empty object"
error. -/
theorem stringOrSlice_error_iff :
    (∀ j, (∃ v, stringOrSliceUnmarshalTree j = Except.ok v) ↔ sosAccepts j = true) ∧
    stringOrSliceUnmarshalBytes [] = Except.error "empty object" := by
  refine ⟨?_, rfl⟩
  intro j
  cases j with
  | null => exact iff_of_true ⟨⟨"", none⟩, rfl⟩ rfl
  | str s => exact iff_of_true ⟨⟨s, none⟩, rfl⟩ rfl
  | bool b =>
      constructor
      · rintro ⟨v, hv⟩
        simp [stringOrSliceUnmarshalTree, jsonToGoString, Except.map] at hv
      · intro hacc
        simp [sosAccepts] at hacc
  | num q =>
      constructor
      · rintro ⟨v, hv⟩
        simp [stringOrSliceUnmarshalTree, jsonToGoString, Except.map] at hv
      · intro hacc
        simp [sosAccepts] at hacc
  | obj fields =>
      constructor
      · rintro ⟨v, hv⟩
        simp [stringOrSliceUnmarshalTree, jsonToGoString, Except.map] at hv
      · intro hacc
        simp [sosAccepts] at hacc
  | arr elems =>
      constructor
      · rintro ⟨v, hv⟩
        simp only [stringOrSliceUnmarshalTree] at hv
        show sosAccepts (Json.arr elems) = true
        rw [sosAccepts]
        apply (mapE_jsonToGoString_ok_iff elems).mp
        cases hml : mapE jsonToGoString elems with
        | error e => rw [hml] at hv; simp [Except.map] at hv
        | ok l => exact ⟨l, rfl⟩
      · intro hacc
        rw [sosAccepts] at hacc
        obtain ⟨l, hl⟩ := (mapE_jsonToGoString_ok_iff elems).mpr hacc
        exact ⟨⟨"", some l⟩, by simp [stringOrSliceUnmarshalTree, hl, Except.map]⟩

/-- **C9**'s original claim is false: the payload `null` is nonempty,
is not a JSON string and is not a JSON array of strings, yet
scalar-or-list decode succeeds (JSON `null` into a Go string is a
no-op, not an error), yielding the zero value. -/
theorem stringOrSliceBytes_null_ok :
    stringOrSliceUnmarshalBytes ("null".toList) = Except.ok ⟨"", none⟩ ∧
    sosAccepts Json.null = true := ⟨rfl, rfl⟩

/-! ### Heap-model lemmas -/

theorem lookupA_mem (cells : List (Nat × Cell)) (a : Nat) (c : Cell)
    (h : lookupA cells a = some c) : (a, c) ∈ cells := by
  induction cells with
  | nil => cases h
  | cons hd rest ih =>
      obtain ⟨a', c'⟩ := hd
      by_cases h' : a' = a
      · subst h'
        simp only [lookupA, if_pos rfl] at h
        cases h
        exact List.mem_cons_self _ _
      · simp only [lookupA, if_neg h'] at h
        exact List.mem_cons_of_mem _ (ih h)

theorem lookupA_writeA_ne (cells : List (Nat × Cell)) (a b : Nat) (c : Cell)
    (hne : b ≠ a) : lookupA (writeA cells a c) b = lookupA cells b := by
  induction cells with
  | nil => rfl
  | cons hd rest ih =>
      obtain ⟨a', c'⟩ := hd
      by_cases h' : a' = a
      · subst h'
        simp only [writeA, if_pos rfl, lookupA]
        rw [if_neg (fun he => hne he.symm), if_neg (fun he => hne he.symm)]
      · simp only [writeA, if_neg h', lookupA]
        by_cases h'' : a' = b
        · simp [h'']
        · simp [h'', ih]

theorem writeCell_cell_ne (h : Heap) (a b : Nat) (c : Cell) (hne : b ≠ a) :
    (writeCell h a c).cell b = h.cell b :=
  lookupA_writeA_ne h.cells a b c hne

theorem heapWFb_cell (h : Heap) (a : Nat) (c : Cell)
    (hwf : heapWFb h = true) (hc : h.cell a = some c) :
    a < h.next ∧ refsWindowC 0 h.next c = true := by
  have hmem := lookupA_mem h.cells a c hc
  have := (List.all_eq_true.mp hwf) (a, c) hmem
  simp only [Bool.and_eq_true, decide_eq_true_eq] at this
  exact this

theorem heap_cell_none_of_ge (h : Heap) (a : Nat)
    (hwf : heapWFb h = true) (ha : h.next ≤ a) : h.cell a = none := by
  cases hc : h.cell a with
  | none => rfl
  | some c =>
      have := (heapWFb_cell h a c hwf hc).1
      omega

theorem refsWindowV_mono (lo hi lo' hi' : Nat) (v : HVal)
    (hlo : lo' ≤ lo) (hhi : hi ≤ hi')
    (hv : refsWindowV lo hi v = true) : refsWindowV lo' hi' v = true := by
  cases v with
  | vref a =>
      simp only [refsWindowV, Bool.and_eq_true, decide_eq_true_eq] at hv ⊢
      omega
  | vnull => rfl
  | vbool b => rfl
  | vnum q => rfl
  | vstr s => rfl

theorem refsWindowC_mono (lo hi lo' hi' : Nat) (c : Cell)
    (hlo : lo' ≤ lo) (hhi : hi ≤ hi')
    (hc : refsWindowC lo hi c = true) : refsWindowC lo' hi' c = true := by
  cases c with
  | cmap fs =>
      simp only [refsWindowC, List.all_eq_true] at hc ⊢
      exact fun kv hkv => refsWindowV_mono lo hi lo' hi' kv.2 hlo hhi (hc kv hkv)
  | carr es =>
      simp only [refsWindowC, List.all_eq_true] at hc ⊢
      exact fun v hv => refsWindowV_mono lo hi lo' hi' v hlo hhi (hc v hv)

theorem valRefsIn_of_windowV (lo hi : Nat) (v : HVal)
    (hv : refsWindowV lo hi v = true) :
    valRefsIn (fun a => lo ≤ a ∧ a < hi) v := by
  cases v with
  | vref a =>
      simp only [refsWindowV, Bool.and_eq_true, decide_eq_true_eq] at hv
      exact hv
  | vnull => trivial
  | vbool b => trivial
  | vnum q => trivial
  | vstr s => trivial

theorem valRefsIn_mono (S S' : Nat → Prop) (v : HVal)
    (hss : ∀ a, S a → S' a) (hv : valRefsIn S v) : valRefsIn S' v := by
  cases v with
  | vref a => exact hss a hv
  | vnull => trivial
  | vbool b => trivial
  | vnum q => trivial
  | vstr s => trivial

theorem cellRefsIn_of_windowC (lo hi : Nat) (c : Cell)
    (hc : refsWindowC lo hi c = true) :
    cellRefsIn (fun a => lo ≤ a ∧ a < hi) c := by
  cases c with
  | cmap fs =>
      simp only [refsWindowC, List.all_eq_true] at hc
      exact fun kv hkv => valRefsIn_of_windowV lo hi kv.2 (hc kv hkv)
  | carr es =>
      simp only [refsWindowC, List.all_eq_true] at hc
      exact fun v hv => valRefsIn_of_windowV lo hi v (hc v hv)

theorem cellRefsIn_mono (S S' : Nat → Prop) (c : Cell)
    (hss : ∀ a, S a → S' a) (hc : cellRefsIn S c) : cellRefsIn S' c := by
  cases c with
  | cmap fs => exact fun kv hkv => valRefsIn_mono S S' kv.2 hss (hc kv hkv)
  | carr es => exact fun v hv => valRefsIn_mono S S' v hss (hc v hv)

/-- Reading depends only on the cells at addresses in a set `S` that
is closed under following references and contains the value's own
references. -/
theorem readVal_agree (S : Nat → Prop) (h₁ h₂ : Heap)
    (hagree : ∀ a, S a → h₁.cell a = h₂.cell a)
    (hclosed : ∀ a c, S a → h₁.cell a = some c → cellRefsIn S c) :
    ∀ (fuel : Nat) (v : HVal), valRefsIn S v →
      readVal fuel h₁ v = readVal fuel h₂ v := by
  intro fuel
  induction fuel with
  | zero => intro v _; rfl
  | succ fuel ih =>
      intro v hv
      cases v with
      | vnull => rfl
      | vbool b => rfl
      | vnum q => rfl
      | vstr s => rfl
      | vref a =>
          have hS : S a := hv
          simp only [readVal]
          rw [← hagree a hS]
          cases hc : h₁.cell a with
          | none => rfl
          | some c =>
              have hcr := hclosed a c hS hc
              cases c with
              | cmap fs =>
                  have hmaps : fs.map (fun kv => (readVal fuel h₁ kv.2).map ((kv.1, ·))) =
                      fs.map (fun kv => (readVal fuel h₂ kv.2).map ((kv.1, ·))) :=
                    List.map_congr_left fun kv hkv => by rw [ih kv.2 (hcr kv hkv)]
                  simp only [hmaps]
              | carr es =>
                  have hmaps : es.map (fun e => readVal fuel h₁ e) =
                      es.map (fun e => readVal fuel h₂ e) :=
                    List.map_congr_left fun e he => by rw [ih e (hcr e he)]
                  simp only [hmaps]

/-- Nested induction principle for `Json` (member-wise hypotheses for
arrays and objects). -/
theorem Json.indNested (motive : Json → Prop)
    (hnull : motive .null) (hbool : ∀ b, motive (.bool b))
    (hnum : ∀ q, motive (.num q)) (hstr : ∀ s, motive (.str s))
    (harr : ∀ es, (∀ t ∈ es, motive t) → motive (.arr es))
    (hobj : ∀ fs, (∀ kv ∈ fs, motive kv.2) → motive (.obj fs)) :
    ∀ t, motive t
  | .null => hnull
  | .bool b => hbool b
  | .num q => hnum q
  | .str s => hstr s
  | .arr es => harr es fun t ht =>
      Json.indNested motive hnull hbool hnum hstr harr hobj t
  | .obj fs => hobj fs fun kv hkv =>
      Json.indNested motive hnull hbool hnum hstr harr hobj kv.2
termination_by t => sizeOf t
decreasing_by
  · have h₁ := List.sizeOf_lt_of_mem ht
    simp only [Json.arr.sizeOf_spec]
    omega
  · have h₁ := List.sizeOf_lt_of_mem hkv
    have h₂ : sizeOf kv.2 < sizeOf kv := by
      obtain ⟨k, v⟩ := kv
      simp only [Prod.mk.sizeOf_spec]
      omega
    simp only [Json.obj.sizeOf_spec]
    omega

theorem lookupA_cons_self (a : Nat) (c : Cell) (rest : List (Nat × Cell)) :
    lookupA ((a, c) :: rest) a = some c := by
  simp [lookupA]

theorem lookupA_cons_ne (a' : Nat) (c' : Cell) (rest : List (Nat × Cell))
    (a : Nat) (h : a' ≠ a) : lookupA ((a', c') :: rest) a = lookupA rest a := by
  simp [lookupA, h]

theorem heapWFb_cons (h₁ : Heap) (c : Cell)
    (hwf : heapWFb h₁ = true) (hc : refsWindowC 0 (h₁.next + 1) c = true) :
    heapWFb ⟨(h₁.next, c) :: h₁.cells, h₁.next + 1⟩ = true := by
  simp only [heapWFb, List.all_cons, Bool.and_eq_true, decide_eq_true_eq]
  refine ⟨⟨Nat.lt_succ_self _, hc⟩, ?_⟩
  apply List.all_eq_true.mpr
  intro ac hmem
  have := List.all_eq_true.mp hwf ac hmem
  simp only [Bool.and_eq_true, decide_eq_true_eq] at this ⊢
  exact ⟨Nat.lt_succ_of_lt this.1,
    refsWindowC_mono 0 h₁.next 0 (h₁.next + 1) _ (Nat.le_refl _)
      (Nat.le_succ _) this.2⟩

theorem allocJson_obj (h : Heap) (fs : List (String × Json)) :
    allocJson h (.obj fs) =
      (.vref (allocFields h fs).2.next,
        ⟨((allocFields h fs).2.next, .cmap (allocFields h fs).1) ::
            (allocFields h fs).2.cells,
          (allocFields h fs).2.next + 1⟩) := by
  simp only [allocJson]

theorem allocJson_arr (h : Heap) (es : List Json) :
    allocJson h (.arr es) =
      (.vref (allocElems h es).2.next,
        ⟨((allocElems h es).2.next, .carr (allocElems h es).1) ::
            (allocElems h es).2.cells,
          (allocElems h es).2.next + 1⟩) := by
  simp only [allocJson]

theorem allocFields_cons (h : Heap) (k : String) (t : Json)
    (rest : List (String × Json)) :
    allocFields h ((k, t) :: rest) =
      ((k, (allocJson h t).1) :: (allocFields (allocJson h t).2 rest).1,
        (allocFields (allocJson h t).2 rest).2) := by
  simp only [allocFields]

theorem allocElems_cons (h : Heap) (t : Json) (rest : List Json) :
    allocElems h (t :: rest) =
      ((allocJson h t).1 :: (allocElems (allocJson h t).2 rest).1,
        (allocElems (allocJson h t).2 rest).2) := by
  simp only [allocElems]

theorem allocFields_spec_aux :
    ∀ (fs : List (String × Json)),
      (∀ kv ∈ fs, ∀ (h : Heap), heapWFb h = true →
          h.next ≤ (allocJson h kv.2).2.next ∧
          heapWFb (allocJson h kv.2).2 = true ∧
          (∀ a, a < h.next → (allocJson h kv.2).2.cell a = h.cell a) ∧
          refsWindowV h.next (allocJson h kv.2).2.next (allocJson h kv.2).1 = true ∧
          (∀ a c, h.next ≤ a → (allocJson h kv.2).2.cell a = some c →
              refsWindowC h.next (allocJson h kv.2).2.next c = true)) →
      ∀ (h : Heap), heapWFb h = true →
          h.next ≤ (allocFields h fs).2.next ∧
          heapWFb (allocFields h fs).2 = true ∧
          (∀ a, a < h.next → (allocFields h fs).2.cell a = h.cell a) ∧
          ((allocFields h fs).1.all fun kv =>
              refsWindowV h.next (allocFields h fs).2.next kv.2) = true ∧
          (∀ a c, h.next ≤ a → (allocFields h fs).2.cell a = some c →
              refsWindowC h.next (allocFields h fs).2.next c = true) := by
  intro fs
  induction fs with
  | nil =>
      intro _ h hwf
      simp only [allocFields]
      refine ⟨Nat.le_refl _, hwf, fun a _ => trivial, rfl, ?_⟩
      intro a c ha hc
      rw [heap_cell_none_of_ge h a hwf ha] at hc
      cases hc
  | cons kt rest ih =>
      intro IH h hwf
      obtain ⟨k, t⟩ := kt
      obtain ⟨hle₁, hwf₁, hpres₁, hwin₁, hnew₁⟩ :=
        IH (k, t) (List.mem_cons_self _ _) h hwf
      obtain ⟨hle₂, hwf₂, hpres₂, hwin₂, hnew₂⟩ :=
        ih (fun kv hkv => IH kv (List.mem_cons_of_mem _ hkv)) (allocJson h t).2 hwf₁
      rw [allocFields_cons]
      refine ⟨Nat.le_trans hle₁ hle₂, hwf₂, ?_, ?_, ?_⟩
      · intro a ha
        rw [hpres₂ a (Nat.lt_of_lt_of_le ha hle₁), hpres₁ a ha]
      · simp only [List.all_cons, Bool.and_eq_true]
        refine ⟨refsWindowV_mono h.next (allocJson h t).2.next h.next
          (allocFields (allocJson h t).2 rest).2.next _ (Nat.le_refl _) hle₂ hwin₁, ?_⟩
        apply List.all_eq_true.mpr
        intro kv hkv
        exact refsWindowV_mono (allocJson h t).2.next
          (allocFields (allocJson h t).2 rest).2.next h.next
          (allocFields (allocJson h t).2 rest).2.next _ hle₁ (Nat.le_refl _)
          (List.all_eq_true.mp hwin₂ kv hkv)
      · intro a c ha hc
        by_cases ha₁ : (allocJson h t).2.next ≤ a
        · exact refsWindowC_mono (allocJson h t).2.next _ h.next _ _ hle₁
            (Nat.le_refl _) (hnew₂ a c ha₁ hc)
        · push_neg at ha₁
          rw [hpres₂ a ha₁] at hc
          exact refsWindowC_mono h.next (allocJson h t).2.next h.next _ _
            (Nat.le_refl _) hle₂ (hnew₁ a c ha hc)

theorem allocElems_spec_aux :
    ∀ (es : List Json),
      (∀ t ∈ es, ∀ (h : Heap), heapWFb h = true →
          h.next ≤ (allocJson h t).2.next ∧
          heapWFb (allocJson h t).2 = true ∧
          (∀ a, a < h.next → (allocJson h t).2.cell a = h.cell a) ∧
          refsWindowV h.next (allocJson h t).2.next (allocJson h t).1 = true ∧
          (∀ a c, h.next ≤ a → (allocJson h t).2.cell a = some c →
              refsWindowC h.next (allocJson h t).2.next c = true)) →
      ∀ (h : Heap), heapWFb h = true →
          h.next ≤ (allocElems h es).2.next ∧
          heapWFb (allocElems h es).2 = true ∧
          (∀ a, a < h.next → (allocElems h es).2.cell a = h.cell a) ∧
          ((allocElems h es).1.all fun v =>
              refsWindowV h.next (allocElems h es).2.next v) = true ∧
          (∀ a c, h.next ≤ a → (allocElems h es).2.cell a = some c →
              refsWindowC h.next (allocElems h es).2.next c = true) := by
  intro es
  induction es with
  | nil =>
      intro _ h hwf
      simp only [allocElems]
      refine ⟨Nat.le_refl _, hwf, fun a _ => trivial, rfl, ?_⟩
      intro a c ha hc
      rw [heap_cell_none_of_ge h a hwf ha] at hc
      cases hc
  | cons t rest ih =>
      intro IH h hwf
      obtain ⟨hle₁, hwf₁, hpres₁, hwin₁, hnew₁⟩ :=
        IH t (List.mem_cons_self _ _) h hwf
      obtain ⟨hle₂, hwf₂, hpres₂, hwin₂, hnew₂⟩ :=
        ih (fun t' ht' => IH t' (List.mem_cons_of_mem _ ht')) (allocJson h t).2 hwf₁
      rw [allocElems_cons]
      refine ⟨Nat.le_trans hle₁ hle₂, hwf₂, ?_, ?_, ?_⟩
      · intro a ha
        rw [hpres₂ a (Nat.lt_of_lt_of_le ha hle₁), hpres₁ a ha]
      · simp only [List.all_cons, Bool.and_eq_true]
        refine ⟨refsWindowV_mono h.next (allocJson h t).2.next h.next
          (allocElems (allocJson h t).2 rest).2.next _ (Nat.le_refl _) hle₂ hwin₁, ?_⟩
        apply List.all_eq_true.mpr
        intro v hv
        exact refsWindowV_mono (allocJson h t).2.next
          (allocElems (allocJson h t).2 rest).2.next h.next
          (allocElems (allocJson h t).2 rest).2.next _ hle₁ (Nat.le_refl _)
          (List.all_eq_true.mp hwin₂ v hv)
      · intro a c ha hc
        by_cases ha₁ : (allocJson h t).2.next ≤ a
        · exact refsWindowC_mono (allocJson h t).2.next _ h.next _ _ hle₁
            (Nat.le_refl _) (hnew₂ a c ha₁ hc)
        · push_neg at ha₁
          rw [hpres₂ a ha₁] at hc
          exact refsWindowC_mono h.next (allocJson h t).2.next h.next _ _
            (Nat.le_refl _) hle₂ (hnew₁ a c ha hc)

/-- What allocation guarantees: the cursor only advances, the heap
stays well-formed, old cells are untouched, and the returned value and
all new cells reference only the freshly allocated window. -/
theorem allocJson_spec :
    ∀ (t : Json) (h : Heap), heapWFb h = true →
      h.next ≤ (allocJson h t).2.next ∧
      heapWFb (allocJson h t).2 = true ∧
      (∀ a, a < h.next → (allocJson h t).2.cell a = h.cell a) ∧
      refsWindowV h.next (allocJson h t).2.next (allocJson h t).1 = true ∧
      (∀ a c, h.next ≤ a → (allocJson h t).2.cell a = some c →
          refsWindowC h.next (allocJson h t).2.next c = true) := by
  intro t
  induction t using Json.indNested with
  | hnull =>
      intro h hwf
      simp only [allocJson]
      refine ⟨Nat.le_refl _, hwf, fun a _ => trivial, rfl, ?_⟩
      intro a c ha hc
      rw [heap_cell_none_of_ge h a hwf ha] at hc
      cases hc
  | hbool b =>
      intro h hwf
      simp only [allocJson]
      refine ⟨Nat.le_refl _, hwf, fun a _ => trivial, rfl, ?_⟩
      intro a c ha hc
      rw [heap_cell_none_of_ge h a hwf ha] at hc
      cases hc
  | hnum q =>
      intro h hwf
      simp only [allocJson]
      refine ⟨Nat.le_refl _, hwf, fun a _ => trivial, rfl, ?_⟩
      intro a c ha hc
      rw [heap_cell_none_of_ge h a hwf ha] at hc
      cases hc
  | hstr s =>
      intro h hwf
      simp only [allocJson]
      refine ⟨Nat.le_refl _, hwf, fun a _ => trivial, rfl, ?_⟩
      intro a c ha hc
      rw [heap_cell_none_of_ge h a hwf ha] at hc
      cases hc
  | harr es hes =>
      intro h hwf
      obtain ⟨hle₁, hwf₁, hpres₁, hwin₁, hnew₁⟩ := allocElems_spec_aux es hes h hwf
      rw [allocJson_arr]
      have hwinC : refsWindowC 0 ((allocElems h es).2.next + 1)
          (.carr (allocElems h es).1) = true := by
        simp only [refsWindowC]
        apply List.all_eq_true.mpr
        intro v hv
        exact refsWindowV_mono h.next (allocElems h es).2.next 0
          ((allocElems h es).2.next + 1) _ (Nat.zero_le _) (Nat.le_succ _)
          (List.all_eq_true.mp hwin₁ v hv)
      refine ⟨Nat.le_succ_of_le hle₁, heapWFb_cons _ _ hwf₁ hwinC, ?_, ?_, ?_⟩
      · intro a ha
        show lookupA (((allocElems h es).2.next, _) :: (allocElems h es).2.cells) a =
          h.cell a
        rw [lookupA_cons_ne _ _ _ _ (by omega : (allocElems h es).2.next ≠ a)]
        exact hpres₁ a ha
      · simp only [refsWindowV, Bool.and_eq_true, decide_eq_true_eq]
        exact ⟨hle₁, Nat.lt_succ_self _⟩
      · intro a c ha hc
        by_cases heq : (allocElems h es).2.next = a
        · subst heq
          have : some (Cell.carr (allocElems h es).1) = some c := by
            rw [← hc]
            exact (lookupA_cons_self _ _ _).symm
          cases this
          simp only [refsWindowC]
          apply List.all_eq_true.mpr
          intro v hv
          exact refsWindowV_mono h.next (allocElems h es).2.next h.next
            ((allocElems h es).2.next + 1) _ (Nat.le_refl _) (Nat.le_succ _)
            (List.all_eq_true.mp hwin₁ v hv)
        · have hc' : (allocElems h es).2.cell a = some c := by
            rw [← hc]
            exact (lookupA_cons_ne _ _ _ _ heq).symm
          by_cases ha₁ : (allocElems h es).2.next ≤ a
          · rw [heap_cell_none_of_ge _ a hwf₁ ha₁] at hc'
            cases hc'
          · push_neg at ha₁
            exact refsWindowC_mono h.next (allocElems h es).2.next h.next
              ((allocElems h es).2.next + 1) _ (Nat.le_refl _) (Nat.le_succ _)
              (hnew₁ a c ha hc')
  | hobj fs hfs =>
      intro h hwf
      obtain ⟨hle₁, hwf₁, hpres₁, hwin₁, hnew₁⟩ := allocFields_spec_aux fs hfs h hwf
      rw [allocJson_obj]
      have hwinC : refsWindowC 0 ((allocFields h fs).2.next + 1)
          (.cmap (allocFields h fs).1) = true := by
        simp only [refsWindowC]
        apply List.all_eq_true.mpr
        intro kv hkv
        exact refsWindowV_mono h.next (allocFields h fs).2.next 0
          ((allocFields h fs).2.next + 1) _ (Nat.zero_le _) (Nat.le_succ _)
          (List.all_eq_true.mp hwin₁ kv hkv)
      refine ⟨Nat.le_succ_of_le hle₁, heapWFb_cons _ _ hwf₁ hwinC, ?_, ?_, ?_⟩
      · intro a ha
        show lookupA (((allocFields h fs).2.next, _) :: (allocFields h fs).2.cells) a =
          h.cell a
        rw [lookupA_cons_ne _ _ _ _ (by omega : (allocFields h fs).2.next ≠ a)]
        exact hpres₁ a ha
      · simp only [refsWindowV, Bool.and_eq_true, decide_eq_true_eq]
        exact ⟨hle₁, Nat.lt_succ_self _⟩
      · intro a c ha hc
        by_cases heq : (allocFields h fs).2.next = a
        · subst heq
          have : some (Cell.cmap (allocFields h fs).1) = some c := by
            rw [← hc]
            exact (lookupA_cons_self _ _ _).symm
          cases this
          simp only [refsWindowC]
          apply List.all_eq_true.mpr
          intro kv hkv
          exact refsWindowV_mono h.next (allocFields h fs).2.next h.next
            ((allocFields h fs).2.next + 1) _ (Nat.le_refl _) (Nat.le_succ _)
            (List.all_eq_true.mp hwin₁ kv hkv)
        · have hc' : (allocFields h fs).2.cell a = some c := by
            rw [← hc]
            exact (lookupA_cons_ne _ _ _ _ heq).symm
          by_cases ha₁ : (allocFields h fs).2.next ≤ a
          · rw [heap_cell_none_of_ge _ a hwf₁ ha₁] at hc'
            cases hc'
          · push_neg at ha₁
            exact refsWindowC_mono h.next (allocFields h fs).2.next h.next
              ((allocFields h fs).2.next + 1) _ (Nat.le_refl _) (Nat.le_succ _)
              (hnew₁ a c ha hc')

theorem optList_fields_alloc (fuel : Nat)
    (ihJ : ∀ (v : HVal) (t : Json) (h h₀ : Heap),
        readVal fuel h v = some t → heapWFb h₀ = true →
        readVal fuel (allocJson h₀ t).2 (allocJson h₀ t).1 = some t) :
    ∀ (tfs : List (String × Json)) (fs : List (String × HVal)) (h h₀ : Heap),
      heapWFb h₀ = true →
      optList (fs.map fun kv => (readVal fuel h kv.2).map ((kv.1, ·))) = some tfs →
      optList ((allocFields h₀ tfs).1.map fun kv =>
          (readVal fuel (allocFields h₀ tfs).2 kv.2).map ((kv.1, ·))) = some tfs := by
  intro tfs
  induction tfs with
  | nil =>
      intro fs h h₀ _ _
      simp only [allocFields]
      rfl
  | cons kt tfs' ihl =>
      intro fs h h₀ hwf₀ hol
      obtain ⟨k, t₁⟩ := kt
      cases fs with
      | nil => cases hol
      | cons kv fs' =>
          simp only [List.map_cons, optList] at hol
          cases hr : readVal fuel h kv.2 with
          | none => rw [hr] at hol; simp at hol
          | some t₀ =>
              cases hrest : optList (fs'.map fun kv =>
                  (readVal fuel h kv.2).map ((kv.1, ·))) with
              | none => rw [hr, hrest] at hol; simp at hol
              | some ts =>
                  rw [hr, hrest] at hol
                  simp only [Option.map_some', Option.some.injEq,
                    List.cons.injEq, Prod.mk.injEq] at hol
                  obtain ⟨⟨hk, ht⟩, hts⟩ := hol
                  subst hk
                  subst ht
                  subst hts
                  rw [allocFields_cons]
                  obtain ⟨hle₁, hwf₁, hpres₁, hwin₁, hnew₁⟩ := allocJson_spec t₀ h₀ hwf₀
                  obtain ⟨hle₂, hwf₂, hpres₂, hwin₂, hnew₂⟩ :=
                    allocFields_spec_aux ts
                      (fun kv' _ => allocJson_spec kv'.2) (allocJson h₀ t₀).2 hwf₁
                  have hv₁ : readVal fuel (allocJson h₀ t₀).2 (allocJson h₀ t₀).1 =
                      some t₀ := ihJ kv.2 t₀ h h₀ hr hwf₀
                  have hlift : readVal fuel (allocFields (allocJson h₀ t₀).2 ts).2
                      (allocJson h₀ t₀).1 = some t₀ := by
                    rw [← readVal_agree (fun b => b < (allocJson h₀ t₀).2.next)
                      (allocJson h₀ t₀).2 (allocFields (allocJson h₀ t₀).2 ts).2
                      (fun b hb => (hpres₂ b hb).symm)
                      (fun b cc hb hc => cellRefsIn_mono _ _ cc (fun x hx => hx.2)
                        (cellRefsIn_of_windowC 0 (allocJson h₀ t₀).2.next cc
                          (heapWFb_cell _ b cc hwf₁ hc).2))
                      fuel (allocJson h₀ t₀).1
                      (valRefsIn_mono _ _ _ (fun x hx => hx.2)
                        (valRefsIn_of_windowV h₀.next (allocJson h₀ t₀).2.next _ hwin₁))]
                    exact hv₁
                  have hrest' := ihl fs' h (allocJson h₀ t₀).2 hwf₁ hrest
                  simp only [List.map_cons, optList, hlift, hrest', Option.map_some']

theorem optList_elems_alloc (fuel : Nat)
    (ihJ : ∀ (v : HVal) (t : Json) (h h₀ : Heap),
        readVal fuel h v = some t → heapWFb h₀ = true →
        readVal fuel (allocJson h₀ t).2 (allocJson h₀ t).1 = some t) :
    ∀ (tes : List Json) (es : List HVal) (h h₀ : Heap),
      heapWFb h₀ = true →
      optList (es.map fun e => readVal fuel h e) = some tes →
      optList ((allocElems h₀ tes).1.map fun e =>
          readVal fuel (allocElems h₀ tes).2 e) = some tes := by
  intro tes
  induction tes with
  | nil =>
      intro es h h₀ _ _
      simp only [allocElems]
      rfl
  | cons t₀ tes' ihl =>
      intro es h h₀ hwf₀ hol
      cases es with
      | nil => cases hol
      | cons e es' =>
          simp only [List.map_cons, optList] at hol
          cases hr : readVal fuel h e with
          | none => rw [hr] at hol; simp at hol
          | some t₀' =>
              cases hrest : optList (es'.map fun e => readVal fuel h e) with
              | none => rw [hr, hrest] at hol; simp at hol
              | some ts =>
                  rw [hr, hrest] at hol
                  simp only [Option.some.injEq, List.cons.injEq] at hol
                  obtain ⟨ht, hts⟩ := hol
                  subst ht
                  subst hts
                  rw [allocElems_cons]
                  obtain ⟨hle₁, hwf₁, hpres₁, hwin₁, hnew₁⟩ := allocJson_spec t₀' h₀ hwf₀
                  obtain ⟨hle₂, hwf₂, hpres₂, hwin₂, hnew₂⟩ :=
                    allocElems_spec_aux ts
                      (fun t' _ => allocJson_spec t') (allocJson h₀ t₀').2 hwf₁
                  have hv₁ : readVal fuel (allocJson h₀ t₀').2 (allocJson h₀ t₀').1 =
                      some t₀' := ihJ e t₀' h h₀ hr hwf₀
                  have hlift : readVal fuel (allocElems (allocJson h₀ t₀').2 ts).2
                      (allocJson h₀ t₀').1 = some t₀' := by
                    rw [← readVal_agree (fun b => b < (allocJson h₀ t₀').2.next)
                      (allocJson h₀ t₀').2 (allocElems (allocJson h₀ t₀').2 ts).2
                      (fun b hb => (hpres₂ b hb).symm)
                      (fun b cc hb hc => cellRefsIn_mono _ _ cc (fun x hx => hx.2)
                        (cellRefsIn_of_windowC 0 (allocJson h₀ t₀').2.next cc
                          (heapWFb_cell _ b cc hwf₁ hc).2))
                      fuel (allocJson h₀ t₀').1
                      (valRefsIn_mono _ _ _ (fun x hx => hx.2)
                        (valRefsIn_of_windowV h₀.next (allocJson h₀ t₀').2.next _ hwin₁))]
                    exact hv₁
                  have hrest' := ihl es' h (allocJson h₀ t₀').2 hwf₁ hrest
                  simp only [List.map_cons, optList, hlift, hrest']

/-- Reading the freshly allocated copy of a readable tree yields that
tree again, with the same fuel. -/
theorem readVal_alloc :
    ∀ (fuel : Nat) (v : HVal) (t : Json) (h h₀ : Heap),
      readVal fuel h v = some t → heapWFb h₀ = true →
      readVal fuel (allocJson h₀ t).2 (allocJson h₀ t).1 = some t := by
  intro fuel
  induction fuel with
  | zero => intro v t h h₀ hread _; cases hread
  | succ fuel ih =>
      intro v t h h₀ hread hwf₀
      cases v with
      | vnull =>
          simp only [readVal, Option.some.injEq] at hread
          subst hread
          simp only [allocJson, readVal]
      | vbool b =>
          simp only [readVal, Option.some.injEq] at hread
          subst hread
          simp only [allocJson, readVal]
      | vnum q =>
          simp only [readVal, Option.some.injEq] at hread
          subst hread
          simp only [allocJson, readVal]
      | vstr s =>
          simp only [readVal, Option.some.injEq] at hread
          subst hread
          simp only [allocJson, readVal]
      | vref a =>
          simp only [readVal] at hread
          cases hc : h.cell a with
          | none => rw [hc] at hread; cases hread
          | some c =>
              rw [hc] at hread
              cases c with
              | cmap fs =>
                  have hread' : (optList (fs.map fun kv =>
                      (readVal fuel h kv.2).map ((kv.1, ·)))).map Json.obj =
                      some t := hread
                  cases ho : optList (fs.map fun kv =>
                      (readVal fuel h kv.2).map ((kv.1, ·))) with
                  | none => rw [ho] at hread'; simp at hread'
                  | some tfs =>
                      rw [ho] at hread'
                      simp only [Option.map_some', Option.some.injEq] at hread'
                      subst hread'
                      rw [allocJson_obj]
                      obtain ⟨hleF, hwfF, hpresF, hwinF, hnewF⟩ :=
                        allocFields_spec_aux tfs
                          (fun kv _ => allocJson_spec kv.2) h₀ hwf₀
                      have hfields := optList_fields_alloc fuel ih tfs fs h h₀ hwf₀ ho
                      simp only [readVal, Heap.cell, lookupA_cons_self]
                      have hmapeq : (allocFields h₀ tfs).1.map (fun kv =>
                            (readVal fuel
                              (⟨((allocFields h₀ tfs).2.next,
                                  .cmap (allocFields h₀ tfs).1) ::
                                  (allocFields h₀ tfs).2.cells,
                                (allocFields h₀ tfs).2.next + 1⟩ : Heap) kv.2).map
                              ((kv.1, ·))) =
                          (allocFields h₀ tfs).1.map (fun kv =>
                            (readVal fuel (allocFields h₀ tfs).2 kv.2).map
                              ((kv.1, ·))) := by
                        apply List.map_congr_left
                        intro kv hkv
                        rw [← readVal_agree (fun b => b < (allocFields h₀ tfs).2.next)
                          (allocFields h₀ tfs).2
                          (⟨((allocFields h₀ tfs).2.next,
                              .cmap (allocFields h₀ tfs).1) ::
                              (allocFields h₀ tfs).2.cells,
                            (allocFields h₀ tfs).2.next + 1⟩ : Heap)
                          (fun b hb =>
                            (lookupA_cons_ne _ _ _ _ (by omega)).symm)
                          (fun b cc hb hcc => cellRefsIn_mono _ _ cc (fun x hx => hx.2)
                            (cellRefsIn_of_windowC 0 (allocFields h₀ tfs).2.next cc
                              (heapWFb_cell _ b cc hwfF hcc).2))
                          fuel kv.2
                          (valRefsIn_mono _ _ _ (fun x hx => hx.2)
                            (valRefsIn_of_windowV h₀.next (allocFields h₀ tfs).2.next _
                              (List.all_eq_true.mp hwinF kv hkv)))]
                      rw [hmapeq, hfields]
                      rfl
              | carr es =>
                  have hread' : (optList (es.map fun e =>
                      readVal fuel h e)).map Json.arr = some t := hread
                  cases ho : optList (es.map fun e => readVal fuel h e) with
                  | none => rw [ho] at hread'; simp at hread'
                  | some tes =>
                      rw [ho] at hread'
                      simp only [Option.map_some', Option.some.injEq] at hread'
                      subst hread'
                      rw [allocJson_arr]
                      obtain ⟨hleF, hwfF, hpresF, hwinF, hnewF⟩ :=
                        allocElems_spec_aux tes
                          (fun t' _ => allocJson_spec t') h₀ hwf₀
                      have helems := optList_elems_alloc fuel ih tes es h h₀ hwf₀ ho
                      simp only [readVal, Heap.cell, lookupA_cons_self]
                      have hmapeq : (allocElems h₀ tes).1.map (fun e =>
                            readVal fuel
                              (⟨((allocElems h₀ tes).2.next,
                                  .carr (allocElems h₀ tes).1) ::
                                  (allocElems h₀ tes).2.cells,
                                (allocElems h₀ tes).2.next + 1⟩ : Heap) e) =
                          (allocElems h₀ tes).1.map (fun e =>
                            readVal fuel (allocElems h₀ tes).2 e) := by
                        apply List.map_congr_left
                        intro e he
                        rw [← readVal_agree (fun b => b < (allocElems h₀ tes).2.next)
                          (allocElems h₀ tes).2
                          (⟨((allocElems h₀ tes).2.next,
                              .carr (allocElems h₀ tes).1) ::
                              (allocElems h₀ tes).2.cells,
                            (allocElems h₀ tes).2.next + 1⟩ : Heap)
                          (fun b hb =>
                            (lookupA_cons_ne _ _ _ _ (by omega)).symm)
                          (fun b cc hb hcc => cellRefsIn_mono _ _ cc (fun x hx => hx.2)
                            (cellRefsIn_of_windowC 0 (allocElems h₀ tes).2.next cc
                              (heapWFb_cell _ b cc hwfF hcc).2))
                          fuel e
                          (valRefsIn_mono _ _ _ (fun x hx => hx.2)
                            (valRefsIn_of_windowV h₀.next (allocElems h₀ tes).2.next _
                              (List.all_eq_true.mp hwinF e he)))]
                      rw [hmapeq, helems]
                      rfl

/-- **C8.** In a well-formed heap, the structural copy
(serialize-and-fresh-deserialize, as `Plugins.DeepCopy` does) of a
plugin-configuration structure that reads back as tree `t` is
value-equal to the original and fully independent of it: after the
copy the original still reads `t`, the copy reads `t`, overwriting any
cell the copy can reach (a fresh address, at or above the old
allocation cursor) leaves the original's reading unchanged, and
overwriting any cell the original can reach (below the old cursor)
leaves the copy's reading unchanged. -/
theorem deepCopy_independent (h : Heap) (v : HVal) (fuel : Nat) (t : Json)
    (hwf : heapWFb h = true) (hv : refsWindowV 0 h.next v = true)
    (hread : readVal fuel h v = some t) :
    readVal fuel (deepCopyVal fuel h v).2 v = some t ∧
    readVal fuel (deepCopyVal fuel h v).2 (deepCopyVal fuel h v).1 = some t ∧
    (∀ a c, h.next ≤ a →
        readVal fuel (writeCell (deepCopyVal fuel h v).2 a c) v = some t) ∧
    (∀ a c, a < h.next →
        readVal fuel (writeCell (deepCopyVal fuel h v).2 a c)
          (deepCopyVal fuel h v).1 = some t) := by
  have hdc : deepCopyVal fuel h v = allocJson h t := by
    simp only [deepCopyVal, hread]
  rw [hdc]
  obtain ⟨hle, hwf', hpres, hwin, hnew⟩ := allocJson_spec t h hwf
  have hvS : valRefsIn (fun b => b < h.next) v :=
    valRefsIn_mono _ _ v (fun x hx => hx.2) (valRefsIn_of_windowV 0 h.next v hv)
  have hclosed_h : ∀ a c, a < h.next → h.cell a = some c →
      cellRefsIn (fun b => b < h.next) c :=
    fun a c _ hc => cellRefsIn_mono _ _ c (fun x hx => hx.2)
      (cellRefsIn_of_windowC 0 h.next c (heapWFb_cell h a c hwf hc).2)
  have h2 : readVal fuel (allocJson h t).2 (allocJson h t).1 = some t :=
    readVal_alloc fuel v t h h hread hwf
  refine ⟨?_, h2, ?_, ?_⟩
  · rw [← readVal_agree (fun b => b < h.next) h (allocJson h t).2
      (fun a ha => (hpres a ha).symm) hclosed_h fuel v hvS]
    exact hread
  · intro a c ha
    rw [← readVal_agree (fun b => b < h.next) h (writeCell (allocJson h t).2 a c)
      (fun b hb => by
        rw [writeCell_cell_ne _ a b c (by omega)]
        exact (hpres b hb).symm)
      hclosed_h fuel v hvS]
    exact hread
  · intro a c ha
    rw [← readVal_agree (fun b => h.next ≤ b) (allocJson h t).2
      (writeCell (allocJson h t).2 a c)
      (fun b hb => (writeCell_cell_ne _ a b c (by omega)).symm)
      (fun b cc hb hcc => cellRefsIn_mono _ _ cc (fun x hx => hx.1)
        (cellRefsIn_of_windowC h.next (allocJson h t).2.next cc (hnew b cc hb hcc)))
      fuel (allocJson h t).1
      (valRefsIn_mono _ _ _ (fun x hx => hx.1)
        (valRefsIn_of_windowV h.next (allocJson h t).2.next _ hwin))]
    exact h2

/-- Concrete instance of `deepCopy_independent`: a two-plugin-level
heap; mutating the copy's cells (addresses ≥ 2) or the original's
cells (addresses < 2) never changes the other side's reading. -/
theorem deepCopy_independent_witness :
    readVal 3 (deepCopyVal 3
        ⟨[(1, .cmap [("k", .vstr "v")]), (0, .cmap [("p1", .vref 1)])], 2⟩
        (.vref 0)).2 (.vref 0) =
      some (.obj [("p1", .obj [("k", .str "v")])]) ∧
    readVal 3 (deepCopyVal 3
        ⟨[(1, .cmap [("k", .vstr "v")]), (0, .cmap [("p1", .vref 1)])], 2⟩
        (.vref 0)).2
      (deepCopyVal 3
        ⟨[(1, .cmap [("k", .vstr "v")]), (0, .cmap [("p1", .vref 1)])], 2⟩
        (.vref 0)).1 =
      some (.obj [("p1", .obj [("k", .str "v")])]) ∧
    readVal 3 (writeCell (deepCopyVal 3
        ⟨[(1, .cmap [("k", .vstr "v")]), (0, .cmap [("p1", .vref 1)])], 2⟩
        (.vref 0)).2 2 (.cmap [])) (.vref 0) =
      some (.obj [("p1", .obj [("k", .str "v")])]) ∧
    readVal 3 (writeCell (deepCopyVal 3
        ⟨[(1, .cmap [("k", .vstr "v")]), (0, .cmap [("p1", .vref 1)])], 2⟩
        (.vref 0)).2 0 (.cmap [])) (deepCopyVal 3
        ⟨[(1, .cmap [("k", .vstr "v")]), (0, .cmap [("p1", .vref 1)])], 2⟩
        (.vref 0)).1 =
      some (.obj [("p1", .obj [("k", .str "v")])]) :=
  ⟨(deepCopy_independent
      ⟨[(1, .cmap [("k", .vstr "v")]), (0, .cmap [("p1", .vref 1)])], 2⟩
      (.vref 0) 3 (.obj [("p1", .obj [("k", .str "v")])])
      (by decide) (by decide) rfl).1,
   (deepCopy_independent
      ⟨[(1, .cmap [("k", .vstr "v")]), (0, .cmap [("p1", .vref 1)])], 2⟩
      (.vref 0) 3 (.obj [("p1", .obj [("k", .str "v")])])
      (by decide) (by decide) rfl).2.1,
   (deepCopy_independent
      ⟨[(1, .cmap [("k", .vstr "v")]), (0, .cmap [("p1", .vref 1)])], 2⟩
      (.vref 0) 3 (.obj [("p1", .obj [("k", .str "v")])])
      (by decide) (by decide) rfl).2.2.1 2 (.cmap []) (by decide),
   (deepCopy_independent
      ⟨[(1, .cmap [("k", .vstr "v")]), (0, .cmap [("p1", .vref 1)])], 2⟩
      (.vref 0) 3 (.obj [("p1", .obj [("k", .str "v")])])
      (by decide) (by decide) rfl).2.2.2 0 (.cmap []) (by decide)⟩

end Adc
